import Mathlib

/-!
A verification development for the definition-resolution core of
rust-analyzer, as restricted to `crates/hir_def/src/db.rs` and
`crates/hir_def/src/item_tree/pretty.rs`.

The item-tree debug printer (`pretty.rs`) is embedded shallowly and
faithfully: the `Printer` struct with its `buf`/`indent_level`/`needs_indent`
fields, its `Write` impl (which injects indentation at line starts), and the
per-item printing functions.  Strings are modelled as `List Char`; the
printer's `buf` is kept in *reversed* order (most recently written character
first) so that the frequent "last character" inspections of the Rust code
(`buf.chars().last()`, `trim_end_matches`) are head-pattern matches; the
produced text is `buf.reverse`.

Rust `panic!`/`expect`/`unwrap` sites are modelled by `Option`: a function
that can panic returns `none` exactly on the inputs where the Rust code
aborts.

Opaque display-only data (identifier `Name`s, `ModPath`s rendered via
`Display`, `Debug` output of attribute ids) are modelled as opaque character
lists (`Str`), since the printer only ever forwards their rendered text.
-/

namespace RA

/-- Rendered text of an opaque displayable value (a `Name`, a `ModPath`, …). -/
abbrev Str := List Char

/-- The characters of a string literal, as a list. -/
def toL (s : String) : Str := s.data

/-- The printer state of `pretty.rs`: the output buffer (kept reversed:
head = most recently written character), the indentation level, and the
pending-indentation flag.  Mirrors `struct Printer`. -/
structure Printer where
  buf : List Char
  indentLevel : Nat
  needsIndent : Bool
deriving Repr, DecidableEq

/-- `"    ".repeat(indent_level)`: the indentation prefix (all spaces, so it
equals its own reverse). -/
def indentChars (n : Nat) : List Char := List.replicate (4 * n) ' '

/-- Rust's `str::split_inclusive('\n')`: the segments of `s`, each ending
with `'\n'` except possibly the last; the empty string yields no segments. -/
def splitInclusive : List Char → List (List Char)
  | [] => []
  | c :: cs =>
    if c = '\n' then ['\n'] :: splitInclusive cs
    else
      match splitInclusive cs with
      | [] => [[c]]
      | l :: ls => (c :: l) :: ls

/-- One iteration of the `Write::write_str` loop of `pretty.rs` for a single
segment `line` (a nonempty chunk produced by `split_inclusive('\n')`). -/
def pushSeg (p : Printer) (line : List Char) : Printer :=
  let p :=
    if p.needsIndent then
      let buf :=
        match p.buf with
        | [] => p.buf
        | '\n' :: _ => p.buf
        | _ => '\n' :: p.buf
      { buf := indentChars p.indentLevel ++ buf, indentLevel := p.indentLevel,
        needsIndent := false }
    else p
  { buf := line.reverse ++ p.buf, indentLevel := p.indentLevel,
    needsIndent := line.getLast? = some '\n' }

/-- `Write::write_str` of `pretty.rs`: feed every `split_inclusive('\n')`
segment of `s` through the indentation-aware push. -/
def wr (p : Printer) (s : List Char) : Printer :=
  (splitInclusive s).foldl pushSeg p

/-- `w!(self, lit)` for a literal chunk. -/
def wrS (p : Printer) (s : String) : Printer := wr p (toL s)

/-- `wln!(self)`: write a bare newline. -/
def wln (p : Printer) : Printer := wr p ['\n']

/-- `wln!(self, …)` for text `s`: one write of `s` followed by `'\n'`
(Rust's `writeln!` appends the newline to the format string). -/
def wrLn (p : Printer) (s : List Char) : Printer := wr p (s ++ ['\n'])

/-- `Printer::blank` of `pretty.rs`: ensure the buffer ends with a blank
line, inspecting the last two characters. -/
def blank (p : Printer) : Printer :=
  match p.buf with
  | [] => p
  | ['\n'] => p
  | '\n' :: '\n' :: _ => p
  | '\n' :: _ :: _ => { p with buf := '\n' :: p.buf }
  | _ :: _ => { p with buf := '\n' :: '\n' :: p.buf }

/-- `Printer::whitespace` of `pretty.rs`: push a space unless the buffer is
empty or already ends with `'\n'` or `' '`. -/
def whitespace (p : Printer) : Printer :=
  match p.buf with
  | [] => p
  | '\n' :: _ => p
  | ' ' :: _ => p
  | _ => { p with buf := ' ' :: p.buf }

/-- First half of `Printer::indented`: bump the indentation level and write a
newline. -/
def indentIn (p : Printer) : Printer :=
  wln { p with indentLevel := p.indentLevel + 1 }

/-- Second half of `Printer::indented`: restore the indentation level and
trim trailing newlines (`trim_end_matches('\n')`). -/
def indentOut (p : Printer) : Printer :=
  { p with
    indentLevel := p.indentLevel - 1
    buf := p.buf.dropWhile (fun c => c = '\n') }

/-! ## The type-reference data model

Transcribed from the types consumed by `pretty.rs` (`type_ref.rs` /
`path.rs`).  Lists that the printers recurse through are given as bespoke
mutual list types (isomorphic to `List _`) so that the printing functions
are structurally recursive. -/

/-- `Mutability` as matched in `print_type_ref`. -/
inductive Mutability where
  | Shared
  | Mut
deriving Repr, DecidableEq

/-- `PathKind` as matched in `print_path`. -/
inductive PathKind where
  | Plain
  | Super (n : Nat)
  | Crate
  | Abs
  | DollarCrate (krate : Nat)
deriving Repr, DecidableEq

/-- `TraitBoundModifier` as matched in `print_type_bounds`. -/
inductive TraitBoundModifier where
  | None
  | Maybe
deriving Repr, DecidableEq

mutual
/-- `TypeRef` with exactly the payload `print_type_ref` consumes.  `Fn`
carries the parameter-and-return list (`Vec<(Option<Name>, TypeRef)>`) and
the varargs flag.  `Array` lengths and lifetime names are opaque rendered
text. -/
inductive TypeRef where
  | Never
  | Placeholder
  | Tuple (fields : TypeRefList)
  | Path (path : Path)
  | RawPtr (pointee : TypeRef) (mtbl : Mutability)
  | Reference (pointee : TypeRef) (lt : Option Str) (mtbl : Mutability)
  | Array (elem : TypeRef) (len : Str)
  | Slice (elem : TypeRef)
  | Fn (argsAndRet : FnParamList) (varargs : Bool)
  | Macro
  | Error
  | ImplTrait (bounds : TypeBoundList)
  | DynTrait (bounds : TypeBoundList)

/-- The field list of `TypeRef::Tuple`. -/
inductive TypeRefList where
  | nil
  | cons (hd : TypeRef) (tl : TypeRefList)

/-- The `Vec<(Option<Name>, TypeRef)>` of `TypeRef::Fn`. -/
inductive FnParamList where
  | nil
  | cons (name : Option Str) (ty : TypeRef) (tl : FnParamList)

/-- `TypeBound` as matched in `print_type_bounds`. -/
inductive TypeBound where
  | Path (path : Path) (modifier : TraitBoundModifier)
  | ForLifetime (lifetimes : List Str) (path : Path)
  | Lifetime (lt : Str)
  | Error

/-- A bound list (`&[Interned<TypeBound>]`). -/
inductive TypeBoundList where
  | nil
  | cons (hd : TypeBound) (tl : TypeBoundList)

/-- `Option<TypeRef>` occurring inside the recursive family. -/
inductive OptionTypeRef where
  | none
  | some (ty : TypeRef)

/-- `Path`: an optional type anchor, the path kind, and the segments. -/
inductive Path where
  | mk (typeAnchor : OptionTypeRef) (kind : PathKind) (segments : SegmentList)

/-- The segment list of a path: each segment is a name plus optional
generic `args_and_bindings`. -/
inductive SegmentList where
  | nil
  | cons (name : Str) (argsAndBindings : OptionGenericArgs) (tl : SegmentList)

/-- `Option<GenericArgs>` occurring inside the recursive family. -/
inductive OptionGenericArgs where
  | none
  | some (args : GenericArgs)

/-- `GenericArgs`: the `has_self_type` flag, the argument list, and the
associated-type bindings. -/
inductive GenericArgs where
  | mk (hasSelfType : Bool) (args : GenericArgList) (bindings : BindingList)

/-- The generic-argument list. -/
inductive GenericArgList where
  | nil
  | cons (hd : GenericArg) (tl : GenericArgList)

/-- `GenericArg`; the `Type` variant is spelled `Ty` (`Type` is a Lean
keyword), `Const` carries its rendered text. -/
inductive GenericArg where
  | Ty (ty : TypeRef)
  | Const (c : Str)
  | Lifetime (lt : Str)

/-- The associated-type-binding list: each binding is a name, its bounds,
and an optional equated type. -/
inductive BindingList where
  | nil
  | cons (name : Str) (bounds : TypeBoundList) (typeRef : OptionTypeRef) (tl : BindingList)
end

/-- `is_empty()` on a bound list. -/
def TypeBoundList.isNilB : TypeBoundList → Bool
  | .nil => true
  | .cons _ _ => false

/-- Join rendered texts with a separator (`lifetimes.iter().format(", ")`). -/
def joinSep (sep : Str) : List Str → Str
  | [] => []
  | [s] => s
  | s :: rest => s ++ sep ++ joinSep sep rest

/-- The `for _ in 0..*n { w!(self, "super::") }` loop of `print_path`. -/
def wrSuperN : Printer → Nat → Printer
  | p, 0 => p
  | p, n + 1 => wrSuperN (wrS p "super::") n

/-! ## `print_type_ref` / `print_path` / `print_type_bounds` /
`print_generic_arg`

Faithful transcription of `pretty.rs` lines 449–660.  Every Rust panic
site (`expect`, `unwrap`) is an `Option.none` result:
`TypeRef::Fn` with an empty list (`split_last().expect(…)`), and a path
segment whose generic args have `has_self_type` with an empty argument
list (`split_first().unwrap()`). -/

mutual
/-- `Printer::print_type_ref`. -/
def printTypeRef (p : Printer) : TypeRef → Option Printer
  | .Never => some (wrS p "!")
  | .Placeholder => some (wrS p "_")
  | .Tuple fields => do
    let p ← printTypeRefs (wrS p "(") 0 fields
    pure (wrS p ")")
  | .Path path => printPath p path
  | .RawPtr pointee mtbl =>
    let m := match mtbl with
      | .Shared => "*const"
      | .Mut => "*mut"
    printTypeRef (wr p (toL m ++ toL " ")) pointee
  | .Reference pointee lt mtbl =>
    let m := match mtbl with
      | .Shared => ""
      | .Mut => "mut "
    let p := wrS p "&"
    let p := match lt with
      | Option.some n => wr p (n ++ toL " ")
      | Option.none => p
    printTypeRef (wr p (toL m)) pointee
  | .Array elem len => do
    let p ← printTypeRef (wrS p "[") elem
    pure (wr p (toL "; " ++ len ++ toL "]"))
  | .Slice elem => do
    let p ← printTypeRef (wrS p "[") elem
    pure (wrS p "]")
  | .Fn argsAndRet varargs =>
    match argsAndRet with
    | .nil => none
    | .cons _ _ _ => printFnAux (wrS p "fn(") 0 varargs argsAndRet
  | .Macro => some (wrS p "<macro>")
  | .Error => some (wrS p "{unknown}")
  | .ImplTrait bounds => printTypeBounds (wrS p "impl ") 0 bounds
  | .DynTrait bounds => printTypeBounds (wrS p "dyn ") 0 bounds

/-- The argument loop plus return type of the `TypeRef::Fn` arm: the last
element is the return type (`split_last`), the preceding ones are printed
with `", "` separators, then the varargs ellipsis, `") -> "` and the return
type; `i` counts arguments already printed. -/
def printFnAux (p : Printer) (i : Nat) (varargs : Bool) : FnParamList → Option Printer
  | .nil => none
  | .cons _ ty .nil =>
    let p := if varargs then (if i = 0 then wrS p "..." else wrS p ", ...") else p
    printTypeRef (wrS p ") -> ") ty
  | .cons _ ty tl =>
    let p := if i ≠ 0 then wrS p ", " else p
    do
      let p ← printTypeRef p ty
      printFnAux p (i + 1) varargs tl

/-- The field loop of the `TypeRef::Tuple` arm (`", "` separators). -/
def printTypeRefs (p : Printer) (i : Nat) : TypeRefList → Option Printer
  | .nil => some p
  | .cons hd tl =>
    let p := if i ≠ 0 then wrS p ", " else p
    do
      let p ← printTypeRef p hd
      printTypeRefs p (i + 1) tl

/-- `Printer::print_type_bounds` (with the running index of the `" + "`
separator logic). -/
def printTypeBounds (p : Printer) (i : Nat) : TypeBoundList → Option Printer
  | .nil => some p
  | .cons bound tl => do
    let p := if i ≠ 0 then wrS p " + " else p
    let p ← match bound with
      | .Path path modifier =>
        let p := match modifier with
          | .None => p
          | .Maybe => wrS p "?"
        printPath p path
      | .ForLifetime lifetimes path =>
        printPath (wr p (toL "for<" ++ joinSep (toL ", ") lifetimes ++ toL "> ")) path
      | .Lifetime lt => some (wr p lt)
      | .Error => some (wrS p "{unknown}")
    printTypeBounds p (i + 1) tl

/-- `Printer::print_path`. -/
def printPath (p : Printer) : Path → Option Printer
  | .mk typeAnchor kind segments => do
    let p ← match typeAnchor with
      | .some anchor => do
        let p ← printTypeRef (wrS p "<") anchor
        pure (wrS p ">::")
      | .none =>
        some (match kind with
          | .Plain => p
          | .Super 0 => wrS p "self::"
          | .Super n => wrSuperN p n
          | .Crate => wrS p "crate::"
          | .Abs => wrS p "::"
          | .DollarCrate _ => wrS p "$crate::")
    printSegments p 0 segments

/-- The segment loop of `print_path` (`"::"` separators, generic args and
bindings per segment). -/
def printSegments (p : Printer) (i : Nat) : SegmentList → Option Printer
  | .nil => some p
  | .cons name argsAndBindings tl => do
    let p := if i ≠ 0 then wrS p "::" else p
    let p := wr p name
    let p ←
      match argsAndBindings with
      | .none => some p
      | .some (.mk hasSelfType args bindings) =>
        let p := wrS p "<"
        if hasSelfType then
          match args with
          | .nil => none
          | .cons selfTy restArgs => do
            let p ← printGenericArg (wrS p "Self=") selfTy
            let (p, first) ← printGenericArgList p false restArgs
            let p ← printBindings p first bindings
            pure (wrS p ">")
        else do
          let (p, first) ← printGenericArgList p true args
          let p ← printBindings p first bindings
          pure (wrS p ">")
    printSegments p (i + 1) tl

/-- The argument loop inside a segment's generic args; returns the printer
and the final `first` flag (shared with the binding loop). -/
def printGenericArgList (p : Printer) (first : Bool) : GenericArgList → Option (Printer × Bool)
  | .nil => some (p, first)
  | .cons hd tl => do
    let p := if !first then wrS p ", " else p
    let p ← printGenericArg p hd
    printGenericArgList p false tl

/-- The binding loop inside a segment's generic args. -/
def printBindings (p : Printer) (first : Bool) : BindingList → Option Printer
  | .nil => some p
  | .cons name bounds typeRef tl => do
    let p := if !first then wrS p ", " else p
    let p := wr p name
    let p ←
      if bounds.isNilB then some p
      else printTypeBounds (wrS p ": ") 0 bounds
    let p ←
      match typeRef with
      | .none => some p
      | .some ty => printTypeRef (wrS p " = ") ty
    printBindings p false tl

/-- `Printer::print_generic_arg`. -/
def printGenericArg (p : Printer) : GenericArg → Option Printer
  | .Ty ty => printTypeRef p ty
  | .Const c => some (wr p c)
  | .Lifetime lt => some (wr p lt)
end

/-! ## Attributes, visibility, fields, generic parameters, use trees

The `ItemTree`'s `attrs` side table (keyed by `AttrOwner`) is modelled by
storing each owner's `RawAttrs` inline on the owning record; an absent
table entry and an empty attribute list print identically (the attribute
loop emits nothing), so `RawAttrs` is a plain list.  The `Debug` output of
an `AttrId` is carried as opaque rendered text. -/

/-- One raw attribute as printed by `Printer::print_attrs`:
`#[{path}{input}]  // {:?}` of its id. -/
structure Attr where
  path : Str
  input : Option Str
  id : Str
deriving Repr, DecidableEq

/-- An attribute list (`RawAttrs`). -/
abbrev RawAttrs := List Attr

/-- `Printer::print_attrs`. -/
def printAttrs (p : Printer) (attrs : RawAttrs) (inner : Bool) : Printer :=
  attrs.foldl
    (fun p attr =>
      wrLn p
        (toL "#" ++ (if inner then toL "!" else []) ++ toL "[" ++ attr.path ++
          attr.input.getD [] ++ toL "]  // " ++ attr.id))
    p

/-- `RawVisibility` as matched by `Printer::print_visibility`. -/
inductive RawVisibility where
  | Module (path : Str)
  | Public
deriving Repr, DecidableEq

/-- `Printer::print_visibility`. -/
def printVisibility (p : Printer) : RawVisibility → Printer
  | .Module path => wr p (toL "pub(" ++ path ++ toL ") ")
  | .Public => wrS p "pub "

/-- A field record (`Field { visibility, name, type_ref }`), with its
attribute-table entry inlined. -/
structure Field where
  visibility : RawVisibility
  name : Str
  typeRef : TypeRef
  attrs : RawAttrs

/-- `Fields`: the three distinct field shapes (record / tuple / unit). -/
inductive Fields where
  | Record (fields : List Field)
  | Tuple (fields : List Field)
  | Unit

/-- `TypeOrConstParamData`, restricted to what the printer reads: a type
parameter's optional name, or a const parameter's name and type. -/
inductive TypeOrConstParamData where
  | TypeParamData (name : Option Str)
  | ConstParamData (name : Str) (ty : TypeRef)

/-- `TypeOrConstParamData::name()`. -/
def TypeOrConstParamData.name : TypeOrConstParamData → Option Str
  | .TypeParamData n => n
  | .ConstParamData n _ => Option.some n

/-- `WherePredicateTypeTarget`; the `TypeOrConstParam` variant carries the
raw arena index into `GenericParams::type_or_consts` (list position). -/
inductive WherePredicateTypeTarget where
  | TypeRef (ty : TypeRef)
  | TypeOrConstParam (id : Nat)

/-- `WherePredicate`; lifetime references are opaque rendered names. -/
inductive WherePredicate where
  | TypeBound (target : WherePredicateTypeTarget) (bound : TypeBound)
  | Lifetime (target : Str) (bound : Str)
  | ForLifetime (lifetimes : List Str) (target : WherePredicateTypeTarget) (bound : TypeBound)

/-- `GenericParams`, restricted to what the printer reads.  Arenas are
lists; a `la_arena` index is the list position, and `idx.into_raw()`
displays as that position in decimal. -/
structure GenericParams where
  typeOrConsts : List TypeOrConstParamData
  lifetimes : List Str
  wherePredicates : List WherePredicate

/-- Decimal rendering of a raw arena index (`u32` `Display`). -/
def natStr (n : Nat) : Str := (Nat.repr n).data

/-- Uppercase hexadecimal rendering (Rust's `{:X}`). -/
def hexUpper (n : Nat) : Str := (Nat.toDigits 16 n).map Char.toUpper

/-- The lifetime loop of `print_generic_params`; returns the printer and
the `first` flag shared with the following loop. -/
def printGpLifetimes (p : Printer) (first : Bool) : List Str → Printer × Bool
  | [] => (p, first)
  | lt :: rest =>
    let p := if !first then wrS p ", " else p
    printGpLifetimes (wr p lt) false rest

/-- The `type_or_consts` loop of `print_generic_params`; `idx` is the
running arena index. -/
def printGpTypeOrConsts (p : Printer) (first : Bool) (idx : Nat) :
    List TypeOrConstParamData → Option Printer
  | [] => some p
  | x :: rest => do
    let p := if !first then wrS p ", " else p
    let p ←
      match x with
      | .TypeParamData name =>
        match name with
        | Option.some n => some (wr p n)
        | Option.none => some (wr p (toL "_anon_" ++ natStr idx))
      | .ConstParamData name ty =>
        printTypeRef (wr p (toL "const " ++ name ++ toL ": ")) ty
    printGpTypeOrConsts p false (idx + 1) rest

/-- `Printer::print_generic_params`. -/
def printGenericParams (p : Printer) (params : GenericParams) : Option Printer :=
  if params.typeOrConsts.isEmpty && params.lifetimes.isEmpty then some p
  else
    let p := wrS p "<"
    let (p, first) := printGpLifetimes p true params.lifetimes
    do
      let p ← printGpTypeOrConsts p first 0 params.typeOrConsts
      pure (wrS p ">")

/-- The where-predicate target rendering of `print_where_clause`; a
`TypeOrConstParam` index outside the arena is the Rust indexing panic. -/
def printWhereTarget (p : Printer) (params : GenericParams) :
    WherePredicateTypeTarget → Option Printer
  | .TypeRef ty => printTypeRef p ty
  | .TypeOrConstParam id =>
    match params.typeOrConsts.get? id with
    | Option.none => none
    | Option.some x =>
      match x.name with
      | Option.some n => some (wr p n)
      | Option.none => some (wr p (toL "_anon_" ++ natStr id))

/-- The `for<…>` lifetime loop inside a `ForLifetime` where-predicate. -/
def printWcLifetimes (p : Printer) (i : Nat) : List Str → Printer
  | [] => p
  | lt :: rest =>
    let p := if i ≠ 0 then wrS p ", " else p
    printWcLifetimes (wr p lt) (i + 1) rest

/-- The predicate loop of `print_where_clause` (inside the `indented`
block). -/
def printWherePreds (p : Printer) (params : GenericParams) (i : Nat) :
    List WherePredicate → Option Printer
  | [] => some p
  | pred :: rest =>
    let p := if i ≠ 0 then wrLn p (toL ",") else p
    match pred with
    | .Lifetime target bound =>
      printWherePreds (wrLn p (target ++ toL ": " ++ bound ++ toL ",")) params (i + 1) rest
    | .TypeBound target bound => do
      let p ← printWhereTarget p params target
      let p ← printTypeBounds (wrS p ": ") 0 (.cons bound .nil)
      printWherePreds p params (i + 1) rest
    | .ForLifetime lts target bound => do
      let p := printWcLifetimes (wrS p "for<") 0 lts
      let p := wrS p "> "
      let p ← printWhereTarget p params target
      let p ← printTypeBounds (wrS p ": ") 0 (.cons bound .nil)
      printWherePreds p params (i + 1) rest

/-- `Printer::print_where_clause`; the returned flag is the Rust return
value (whether a clause was printed). -/
def printWhereClause (p : Printer) (params : GenericParams) : Option (Printer × Bool) :=
  match params.wherePredicates with
  | [] => some (p, false)
  | preds => do
    let p := wrS p "\nwhere"
    let p := indentIn p
    let p ← printWherePreds p params 0 preds
    pure (indentOut p, true)

/-- `Printer::print_where_clause_and_opening_brace`. -/
def printWhereClauseAndOpeningBrace (p : Printer) (params : GenericParams) :
    Option Printer := do
  let (p, printed) ← printWhereClause p params
  if printed then pure (wrS p "\n\x7b")
  else pure (wrS (whitespace p) "\x7b")

/-- The field loop shared by the `Record` and `Tuple` arms of
`print_fields`. -/
def printFieldList (p : Printer) : List Field → Option Printer
  | [] => some p
  | f :: rest => do
    let p := printAttrs p f.attrs false
    let p := printVisibility p f.visibility
    let p := wr p (f.name ++ toL ": ")
    let p ← printTypeRef p f.typeRef
    printFieldList (wrLn p (toL ",")) rest

/-- `Printer::print_fields`: brace-delimited for `Record`, parenthesized
for `Tuple`, nothing for `Unit`. -/
def printFields (p : Printer) : Fields → Option Printer
  | .Record fields => do
    let p := whitespace p
    let p := wrS p "\x7b"
    let p := indentIn p
    let p ← printFieldList p fields
    pure (wrS (indentOut p) "\x7d")
  | .Tuple fields => do
    let p := wrS p "("
    let p := indentIn p
    let p ← printFieldList p fields
    pure (wrS (indentOut p) ")")
  | .Unit => some p

/-- `Printer::print_fields_and_where_clause`. -/
def printFieldsAndWhereClause (p : Printer) (fields : Fields)
    (params : GenericParams) : Option Printer :=
  match fields with
  | .Record _ => do
    let (p, printed) ← printWhereClause p params
    let p := if printed then wln p else p
    printFields p fields
  | .Unit => do
    let (p, _) ← printWhereClause p params
    printFields p fields
  | .Tuple _ => do
    let p ← printFields p fields
    let (p, _) ← printWhereClause p params
    pure p

mutual
/-- `UseTree` (with its nested list as a bespoke mutual type); paths and
aliases of use items are opaque rendered text. -/
inductive UseTree where
  | Single (path : Str) (al : Option Str)
  | Glob (path : Option Str)
  | Prefixed (pfx : Option Str) (list : UseTreeList)

/-- The subtree list of `UseTreeKind::Prefixed`. -/
inductive UseTreeList where
  | nil
  | cons (hd : UseTree) (tl : UseTreeList)
end

mutual
/-- `Printer::print_use_tree`. -/
def printUseTree (p : Printer) : UseTree → Printer
  | .Single path al =>
    let p := wr p path
    match al with
    | Option.some a => wr p (toL " as " ++ a)
    | Option.none => p
  | .Glob path =>
    let p :=
      match path with
      | Option.some pa => wr p (pa ++ toL "::")
      | Option.none => p
    wrS p "*"
  | .Prefixed pfx list =>
    let p :=
      match pfx with
      | Option.some pa => wr p (pa ++ toL "::")
      | Option.none => p
    let p := wrS p "\x7b"
    wrS (printUseTrees p 0 list) "\x7d"

/-- The subtree loop of the `Prefixed` arm (`", "` separators). -/
def printUseTrees (p : Printer) (i : Nat) : UseTreeList → Printer
  | .nil => p
  | .cons hd tl =>
    let p := if i ≠ 0 then wrS p ", " else p
    printUseTrees (printUseTree p hd) (i + 1) tl
end

/-- An enum variant (`Variant { name, fields }`) with its attribute-table
entry inlined. -/
structure Variant where
  attrs : RawAttrs
  name : Str
  fields : Fields

/-- The variant loop of the `Enum` arm of `print_mod_item`. -/
def printVariantList (p : Printer) : List Variant → Option Printer
  | [] => some p
  | v :: rest => do
    let p := printAttrs p v.attrs false
    let p := wr p v.name
    let p ← printFields p v.fields
    printVariantList (wrLn p (toL ",")) rest

/-- `Param` as matched in the `Function` arm of `print_mod_item`. -/
inductive Param where
  | Normal (name : Option Str) (ty : TypeRef)
  | Varargs

/-- The parameter loop of the `Function` arm (each parameter with its
attribute-table entry inlined). -/
def printParamList (p : Printer) : List (RawAttrs × Param) → Option Printer
  | [] => some p
  | (attrs, param) :: rest => do
    let p := printAttrs p attrs false
    let p ←
      match param with
      | .Normal name ty =>
        let p :=
          match name with
          | Option.some n => wr p (n ++ toL ": ")
          | Option.none => wrS p "_: "
        do
          let p ← printTypeRef p ty
          pure (wrLn p (toL ","))
      | .Varargs => some (wrLn p (toL "..."))
    printParamList p rest

/-! ## `ModItem` and `print_mod_item` / `print_item_tree`

`print_mod_item` matches a `ModItem` id and dereferences the arena record
(`&self.tree[it]`); here the record's printed payload is carried on the
constructor directly, with the item's attribute-table entry inlined as the
first argument.  Trait and impl associated-item lists (converted to
`ModItem` via `.into()` in the source) are plain `ModItemList`s. -/

mutual
/-- `ModItem`, one constructor per arm of `print_mod_item`, each carrying
the destructured fields the arm reads (in source destructuring order,
`ast_id` omitted as unread). -/
inductive ModItem where
  | Import (attrs : RawAttrs) (visibility : RawVisibility) (useTree : UseTree)
  | ExternCrate (attrs : RawAttrs) (name : Str) (al : Option Str) (visibility : RawVisibility)
  | ExternBlock (attrs : RawAttrs) (abi : Option Str) (children : ModItemList)
  | Function (attrs : RawAttrs) (name : Str) (visibility : RawVisibility)
      (explicitGenericParams : GenericParams) (abi : Option Str)
      (params : List (RawAttrs × Param)) (retType : TypeRef) (flagsBits : Nat)
  | Struct (attrs : RawAttrs) (visibility : RawVisibility) (name : Str)
      (fields : Fields) (genericParams : GenericParams)
  | Union (attrs : RawAttrs) (name : Str) (visibility : RawVisibility)
      (fields : Fields) (genericParams : GenericParams)
  | Enum (attrs : RawAttrs) (name : Str) (visibility : RawVisibility)
      (variants : List Variant) (genericParams : GenericParams)
  | Const (attrs : RawAttrs) (name : Option Str) (visibility : RawVisibility)
      (typeRef : TypeRef)
  | Static (attrs : RawAttrs) (name : Str) (visibility : RawVisibility)
      (mutable : Bool) (typeRef : TypeRef)
  | Trait (attrs : RawAttrs) (name : Str) (visibility : RawVisibility)
      (isAuto : Bool) (isUnsafe : Bool) (items : ModItemList)
      (genericParams : GenericParams)
  | Impl (attrs : RawAttrs) (targetTrait : Option Path) (selfTy : TypeRef)
      (isNegative : Bool) (items : ModItemList) (genericParams : GenericParams)
  | TypeAlias (attrs : RawAttrs) (name : Str) (visibility : RawVisibility)
      (bounds : TypeBoundList) (typeRef : Option TypeRef)
      (genericParams : GenericParams)
  | Mod (attrs : RawAttrs) (name : Str) (visibility : RawVisibility) (kind : ModKind)
  | MacroCall (attrs : RawAttrs) (path : Str)
  | MacroRules (attrs : RawAttrs) (name : Str)
  | MacroDef (attrs : RawAttrs) (name : Str) (visibility : RawVisibility)

/-- A child-item list (extern-block children, trait/impl items, inline
module items, top-level items). -/
inductive ModItemList where
  | nil
  | cons (hd : ModItem) (tl : ModItemList)

/-- `ModKind` of a module item. -/
inductive ModKind where
  | Inline (items : ModItemList)
  | Outline
end

mutual
/-- `Printer::print_mod_item`.  The leading `self.print_attrs_of(item)`
and the trailing `self.blank()` of the source are inlined into every
arm. -/
def printModItem (p : Printer) : ModItem → Option Printer
  | .Import attrs visibility useTree =>
    let p := printAttrs p attrs false
    let p := printVisibility p visibility
    let p := wrS p "use "
    let p := printUseTree p useTree
    some (blank (wrLn p (toL ";")))
  | .ExternCrate attrs name al visibility =>
    let p := printAttrs p attrs false
    let p := printVisibility p visibility
    let p := wr p (toL "extern crate " ++ name)
    let p :=
      match al with
      | Option.some a => wr p (toL " as " ++ a)
      | Option.none => p
    some (blank (wrLn p (toL ";")))
  | .ExternBlock attrs abi children =>
    let p := printAttrs p attrs false
    let p := wrS p "extern "
    let p :=
      match abi with
      | Option.some a => wr p (toL "\"" ++ a ++ toL "\" ")
      | Option.none => p
    let p := wrS p "\x7b"
    let p := indentIn p
    do
      let p ← printModItemList p children
      some (blank (wrLn (indentOut p) (toL "\x7d")))
  | .Function attrs name visibility gps abi params retType flagsBits =>
    let p := printAttrs p attrs false
    let p :=
      if flagsBits ≠ 0 then wrLn p (toL "// flags = 0x" ++ hexUpper flagsBits)
      else p
    let p := printVisibility p visibility
    let p :=
      match abi with
      | Option.some a => wr p (toL "extern \"" ++ a ++ toL "\" ")
      | Option.none => p
    let p := wr p (toL "fn " ++ name)
    do
      let p ← printGenericParams p gps
      let p := wrS p "("
      let p ←
        if params.isEmpty then some p
        else do
          let p := indentIn p
          let p ← printParamList p params
          pure (indentOut p)
      let p := wrS p ") -> "
      let p ← printTypeRef p retType
      let (p, _) ← printWhereClause p gps
      some (blank (wrLn p (toL ";")))
  | .Struct attrs visibility name fields gps =>
    let p := printAttrs p attrs false
    let p := printVisibility p visibility
    let p := wr p (toL "struct " ++ name)
    do
      let p ← printGenericParams p gps
      let p ← printFieldsAndWhereClause p fields gps
      let p :=
        match fields with
        | .Record _ => wln p
        | _ => wrLn p (toL ";")
      some (blank p)
  | .Union attrs name visibility fields gps =>
    let p := printAttrs p attrs false
    let p := printVisibility p visibility
    let p := wr p (toL "union " ++ name)
    do
      let p ← printGenericParams p gps
      let p ← printFieldsAndWhereClause p fields gps
      let p :=
        match fields with
        | .Record _ => wln p
        | _ => wrLn p (toL ";")
      some (blank p)
  | .Enum attrs name visibility variants gps =>
    let p := printAttrs p attrs false
    let p := printVisibility p visibility
    let p := wr p (toL "enum " ++ name)
    do
      let p ← printGenericParams p gps
      let p ← printWhereClauseAndOpeningBrace p gps
      let p := indentIn p
      let p ← printVariantList p variants
      some (blank (wrLn (indentOut p) (toL "\x7d")))
  | .Const attrs name visibility typeRef =>
    let p := printAttrs p attrs false
    let p := printVisibility p visibility
    let p := wrS p "const "
    let p :=
      match name with
      | Option.some n => wr p n
      | Option.none => wrS p "_"
    let p := wrS p ": "
    do
      let p ← printTypeRef p typeRef
      some (blank (wrLn p (toL " = _;")))
  | .Static attrs name visibility mutable typeRef =>
    let p := printAttrs p attrs false
    let p := printVisibility p visibility
    let p := wrS p "static "
    let p := if mutable then wrS p "mut " else p
    let p := wr p (name ++ toL ": ")
    do
      let p ← printTypeRef p typeRef
      let p := wrS p " = _;"
      some (blank (wln p))
  | .Trait attrs name visibility isAuto isUnsafe items gps =>
    let p := printAttrs p attrs false
    let p := printVisibility p visibility
    let p := if isUnsafe then wrS p "unsafe " else p
    let p := if isAuto then wrS p "auto " else p
    let p := wr p (toL "trait " ++ name)
    do
      let p ← printGenericParams p gps
      let p ← printWhereClauseAndOpeningBrace p gps
      let p := indentIn p
      let p ← printModItemList p items
      some (blank (wrLn (indentOut p) (toL "\x7d")))
  | .Impl attrs targetTrait selfTy isNegative items gps =>
    let p := printAttrs p attrs false
    let p := wrS p "impl"
    do
      let p ← printGenericParams p gps
      let p := wrS p " "
      let p := if isNegative then wrS p "!" else p
      let p ←
        match targetTrait with
        | Option.some tr => do
          let p ← printPath p tr
          pure (wrS p " for ")
        | Option.none => some p
      let p ← printTypeRef p selfTy
      let p ← printWhereClauseAndOpeningBrace p gps
      let p := indentIn p
      let p ← printModItemList p items
      some (blank (wrLn (indentOut p) (toL "\x7d")))
  | .TypeAlias attrs name visibility bounds typeRef gps =>
    let p := printAttrs p attrs false
    let p := printVisibility p visibility
    let p := wr p (toL "type " ++ name)
    do
      let p ← printGenericParams p gps
      let p ←
        if bounds.isNilB then some p
        else printTypeBounds (wrS p ": ") 0 bounds
      let p ←
        match typeRef with
        | Option.some ty => printTypeRef (wrS p " = ") ty
        | Option.none => some p
      let (p, _) ← printWhereClause p gps
      let p := wrS p ";"
      some (blank (wln p))
  | .Mod attrs name visibility kind =>
    let p := printAttrs p attrs false
    let p := printVisibility p visibility
    let p := wr p (toL "mod " ++ name)
    match kind with
    | .Inline items =>
      let p := wrS p " \x7b"
      let p := indentIn p
      do
        let p ← printModItemList p items
        some (blank (wrLn (indentOut p) (toL "\x7d")))
    | .Outline => some (blank (wrLn p (toL ";")))
  | .MacroCall attrs path =>
    let p := printAttrs p attrs false
    some (blank (wrLn p (path ++ toL "!(...);")))
  | .MacroRules attrs name =>
    let p := printAttrs p attrs false
    some (blank (wrLn p (toL "macro_rules! " ++ name ++ toL " \x7b ... \x7d")))
  | .MacroDef attrs name visibility =>
    let p := printAttrs p attrs false
    let p := printVisibility p visibility
    some (blank (wrLn p (toL "macro " ++ name ++ toL " \x7b ... \x7d")))
termination_by item => sizeOf item

/-- An item loop (`for item in … { p.print_mod_item(*item) }`), used for
the top level, extern-block children, trait/impl items, and inline
modules. -/
def printModItemList (p : Printer) : ModItemList → Option Printer
  | .nil => some p
  | .cons hd tl => do
    let p ← printModItem p hd
    printModItemList p tl
termination_by l => sizeOf l
end

/-- The `ItemTree`, restricted to what `print_item_tree` reads: the
top-level attribute-table entry (`AttrOwner::TopLevel`, an absent entry
printing identically to an empty list) and the ordered top-level item
list. -/
structure ItemTree where
  topAttrs : RawAttrs
  topLevelItems : ModItemList

/-- `print_item_tree`: print top-level inner attributes, a blank
separator, then every top-level item; trim trailing newlines and append a
single final newline.  The produced text is in normal order (the buffer is
reversed back). -/
def printItemTree (tree : ItemTree) : Option (List Char) := do
  let p : Printer := { buf := [], indentLevel := 0, needsIndent := true }
  let p := printAttrs p tree.topAttrs true
  let p := blank p
  let p ← printModItemList p tree.topLevelItems
  pure (('\n' :: p.buf.dropWhile (fun c => c = '\n')).reverse)

/-! ## `db.rs`: `crate_def_map` forwarding and `crate_limits` -/

/-- `CrateId`: an opaque crate handle. -/
abbrev CrateId := Nat

/-- A crate's resolved `DefMap`, restricted to what `crate_limits` reads:
the recorded recursion-limit override returned by
`DefMap::recursion_limit()`. -/
structure DefMap where
  recursion_limit : Option Nat

/-- The `DefDatabase` as seen by the two free functions of `db.rs`: the
cached query `crate_def_map_query` is an oracle from crate to `DefMap`. -/
structure DefDatabase where
  crate_def_map_query : CrateId → DefMap

/-- `crate_def_map_wait` (db.rs 189–192): the implementation the
transparent `crate_def_map` query invokes; the profiling span has no
observable effect on the result. -/
def crate_def_map_wait (db : DefDatabase) (krate : CrateId) : DefMap :=
  db.crate_def_map_query krate

/-- The transparent query `crate_def_map` (db.rs 72–74): a
`salsa::transparent` query caches nothing and records no node of its own —
an invocation is a plain call of `crate_def_map_wait`. -/
def crate_def_map (db : DefDatabase) (krate : CrateId) : DefMap :=
  crate_def_map_wait db krate

/-- `CrateLimits` (db.rs 194–197). -/
structure CrateLimits where
  recursion_limit : Nat

/-- `crate_limits` (db.rs 199–206): the crate's recursion-limit override if
recorded, otherwise 128 (the rustc default). -/
def crate_limits (db : DefDatabase) (crate_id : CrateId) : CrateLimits :=
  let def_map := crate_def_map db crate_id
  { recursion_limit := def_map.recursion_limit.getD 128 }

/-! ## The stable-identity (interning) layer

Modelled from the spec: the salsa `#[salsa::interned]` tables behind the
`InternDatabase` queries of db.rs 32–62 are not part of the sources under
verification, so the interning state is modelled from spec §3/§4.1 as the
list of Locations interned so far, a Stable ID being the position at which
its Location was first interned. -/

/-- Modelled from the spec: a Location,
`(DefinitionKind, container_id, syntax_pointer, file_context)`; two
locations are equal iff all fields are equal. -/
structure Location where
  kind : Nat
  container : Nat
  synPtr : Nat
  fileCtx : Nat
deriving DecidableEq, Repr

/-- The position of the first occurrence of `loc` in the intern table, if
present. -/
def internFind {α : Type} [DecidableEq α] : List α → α → Option Nat
  | [], _ => Option.none
  | x :: xs, loc =>
    if x = loc then Option.some 0 else (internFind xs loc).map (· + 1)

/-- Modelled from the spec: `intern(location) -> id` over the table state —
return the existing id when the Location was interned before, otherwise
assign the next fresh id and record the Location. -/
def intern {α : Type} [DecidableEq α] (st : List α) (loc : α) : Nat × List α :=
  match internFind st loc with
  | Option.some id => (id, st)
  | Option.none => (st.length, st ++ [loc])

/-- Modelled from the spec: `lookup(id) -> location`; `none` is the fatal
internal-invariant panic on a never-interned id (spec §7), not a
recoverable result. -/
def lookup {α : Type} (st : List α) (id : Nat) : Option α := st[id]?

/-! ## `block_def_map` (db.rs 79–95)

Modelled from the spec: `DefMap::block_def_map_query` itself is not among
the sources under verification — only its declaration and doc comment are —
so the block-scoped resolver is modelled from spec §4.5 ("only items
declared directly inside that block are considered; returns a distinguished
absence when the block contains no item-like declarations") and the doc
comment's example (a block whose only item-bearing construct is an inner
block yields `None`). -/

/-- A statement inside a block body: an item-like declaration, an inner
block (whose own items do not count for the outer block), or anything
else. -/
inductive Stmt where
  | item (it : Str)
  | inner (stmts : List Stmt)
  | other

/-- The item-like declarations directly inside a block (items nested in
inner blocks are not collected). -/
def directItems : List Stmt → List Str
  | [] => []
  | .item it :: rest => it :: directItems rest
  | .inner _ :: rest => directItems rest
  | .other :: rest => directItems rest

/-- A block-level definition map: the namespace of the block's own
items. -/
structure BlockDefMap where
  items : List Str
deriving DecidableEq, Repr

/-- Modelled from the spec: `block_def_map` returns the distinguished
absence `none` when the block contains no item-like declarations directly,
and otherwise the `DefMap` of those items. -/
def block_def_map (stmts : List Stmt) : Option BlockDefMap :=
  if directItems stmts = [] then Option.none
  else Option.some ⟨directItems stmts⟩

/-! ## The incremental query database (spec §4.3)

Modelled from the spec: the memoization/invalidation substrate (salsa) is
not among the sources under verification, so it is modelled from spec
§4.3/§9: input queries set directly (bumping a global revision counter),
derived queries that are pure functions of their recorded dependencies,
a cache entry holding the value, the observed dependency values, and the
revision at which the entry was last verified, and a re-validation policy
that reuses a cached result whenever every recorded dependency's value is
unchanged (early cutoff), recomputing otherwise.  Derived queries form a
rank-ordered DAG (a query only depends on inputs and lower-ranked
queries), which spec §4.3 requires by making derived queries pure
functions of other queries' results. -/

namespace Query

/-- Query result values. -/
abbrev Value := Nat

/-- Input-query keys. -/
abbrev InputId := Nat

/-- Derived-query keys; the numeric id doubles as the rank bound for the
dependency DAG. -/
abbrev QueryId := Nat

/-- A key of the query database: an input or a derived query. -/
inductive Key where
  | inp (i : InputId)
  | q (d : QueryId)
deriving DecidableEq, Repr

/-- The rank of a key: inputs sit below every derived query; a derived
query's dependencies must rank strictly below it. -/
def kRank : Key → Nat
  | .inp _ => 0
  | .q d => d + 1

/-- A derived query definition: its dependency list (the queries it reads,
in order) and the pure function combining their values. -/
structure QueryDef where
  deps : List Key
  f : List Value → Value

/-- A program: every derived query's definition. -/
structure Program where
  queries : QueryId → QueryDef

/-- Well-formedness: each derived query depends only on inputs and on
strictly lower-ranked queries (the dependency graph is a DAG). -/
def WfProgram (P : Program) : Prop :=
  ∀ d, ∀ k ∈ (P.queries d).deps, kRank k ≤ d

/-- One unfolding of the from-scratch denotation: evaluate a key given an
evaluator for its dependencies. -/
def denoteStep (P : Program) (inputs : InputId → Value) (rec : Key → Value) :
    Key → Value
  | .inp i => inputs i
  | .q d => (P.queries d).f ((P.queries d).deps.map rec)

/-- The fuelled from-scratch denotation; `kRank k` fuel always suffices
for a well-formed program. -/
def denoteF (P : Program) (inputs : InputId → Value) : Nat → Key → Value
  | 0 => fun k =>
    match k with
    | .inp i => inputs i
    | .q _ => 0
  | fuel + 1 => denoteStep P inputs (denoteF P inputs fuel)

/-- The from-scratch ("recompute from scratch against the current input
state") value of a key. -/
def denote (P : Program) (inputs : InputId → Value) (k : Key) : Value :=
  denoteF P inputs (kRank k) k

/-- A cache entry: the memoized value, the dependency values observed when
it was computed or last revalidated, and the revision at which it was last
verified. -/
structure Entry where
  value : Value
  depValues : List Value
  verifiedAt : Nat

/-- The query database state: current input values, the derived-query
cache, and the global revision counter. -/
structure DB where
  inputs : InputId → Value
  cache : QueryId → Option Entry
  revision : Nat

/-- Store a cache entry for query `d`. -/
def setCache (db : DB) (d : QueryId) (e : Entry) : DB :=
  { db with cache := fun d' => if d' = d then Option.some e else db.cache d' }

/-- Setting an input: overwrite the value and bump the global revision
counter, leaving the cache in place (staleness is discovered lazily). -/
def setInput (db : DB) (i : InputId) (v : Value) : DB :=
  { inputs := fun i' => if i' = i then v else db.inputs i'
    cache := db.cache
    revision := db.revision + 1 }

/-- Demand the values of a dependency list in order, threading the
database through the given evaluator. -/
def getList (rec : DB → Key → Value × DB) : DB → List Key → List Value × DB
  | db, [] => ([], db)
  | db, k :: ks =>
    let r1 := rec db k
    let r2 := getList rec r1.2 ks
    (r1.1 :: r2.1, r2.2)

/-- One unfolding of the demand-driven engine: an input is read directly;
a derived query is served from cache when verified at the current
revision, revalidated against its recorded dependency values (early
cutoff) when stale, and (re)computed and stored otherwise. -/
def getStep (P : Program) (rec : DB → Key → Value × DB) (db : DB) :
    Key → Value × DB
  | .inp i => (db.inputs i, db)
  | .q d =>
    let deps := (P.queries d).deps
    match db.cache d with
    | Option.some e =>
      if e.verifiedAt = db.revision then (e.value, db)
      else
        let r := getList rec db deps
        if r.1 = e.depValues then
          (e.value, setCache r.2 d { e with verifiedAt := r.2.revision })
        else
          let v := (P.queries d).f r.1
          (v, setCache r.2 d ⟨v, r.1, r.2.revision⟩)
    | Option.none =>
      let r := getList rec db deps
      let v := (P.queries d).f r.1
      (v, setCache r.2 d ⟨v, r.1, r.2.revision⟩)

/-- The fuelled demand-driven engine. -/
def getKeyF (P : Program) : Nat → DB → Key → Value × DB
  | 0 => fun db k =>
    match k with
    | .inp i => (db.inputs i, db)
    | .q _ => (0, db)
  | fuel + 1 => getStep P (getKeyF P fuel)

/-- Demand a key's value from the engine. -/
def getKey (P : Program) (db : DB) (k : Key) : Value × DB :=
  getKeyF P (kRank k) db k

/-- An operation against the database: an input edit, or a demanded
read. -/
inductive Op where
  | set (i : InputId) (v : Value)
  | get (k : Key)

/-- Apply one operation to the database. -/
def stepOp (P : Program) (db : DB) : Op → DB
  | .set i v => setInput db i v
  | .get k => (getKey P db k).2

/-- Run a finite operation sequence. -/
def runOps (P : Program) : DB → List Op → DB
  | db, [] => db
  | db, op :: rest => runOps P (stepOp P db op) rest

/-- The final input state an operation sequence produces (edits applied in
order, reads ignored). -/
def applyEdits (inputs : InputId → Value) : List Op → (InputId → Value)
  | [] => inputs
  | .set i v :: rest => applyEdits (fun i' => if i' = i then v else inputs i') rest
  | .get _ :: rest => applyEdits inputs rest

/-- A fresh database over initial inputs: empty cache, revision 0. -/
def emptyDB (inputs0 : InputId → Value) : DB :=
  ⟨inputs0, fun _ => Option.none, 0⟩

/-- The engine invariant: every cache entry is internally consistent
(its value is its query's function at its recorded dependency values),
is verified no later than the current revision, and — when verified at
the current revision — agrees with the from-scratch denotation against
the current inputs. -/
def Inv (P : Program) (db : DB) : Prop :=
  ∀ d e, db.cache d = Option.some e →
    e.value = (P.queries d).f e.depValues ∧
    e.verifiedAt ≤ db.revision ∧
    (e.verifiedAt = db.revision →
      e.depValues = (P.queries d).deps.map (denote P db.inputs) ∧
      e.value = denote P db.inputs (.q d))

end Query

/-! ## Auxiliary definitions used by the statements below -/

/-- The printer state `print_item_tree` starts from: empty buffer, zero
indentation, pending indent. -/
def freshPrinter : Printer := ⟨[], 0, true⟩

/-- The closing-brace character (written by codepoint). -/
def rbrace : Char := Char.ofNat 125

/-- The text `print_visibility` emits for a visibility, stated
independently for readability of the theorems. -/
def visText : RawVisibility → Str
  | .Module path => toL "pub(" ++ path ++ toL ") "
  | .Public => toL "pub "

/-- The `<name-or-_>` of a const item. -/
def nameOrUnderscore : Option Str → Str
  | Option.some n => n
  | Option.none => toL "_"

/-- The ending a struct/union rendering must have, by field shape:
record-shaped renderings end with the closing brace and a blank line,
tuple- and unit-shaped ones end with `;` and a blank line (stated on the
reversed buffer). -/
def shapeEnd (fields : Fields) (p : Printer) : Prop :=
  match fields with
  | .Record _ => ∃ rest, p.buf = '\n' :: '\n' :: rbrace :: rest
  | _ => ∃ rest, p.buf = '\n' :: '\n' :: ';' :: rest

/-- The indentation invariant threaded through level-0 printing: whenever
indentation is pending, the buffer is empty or already ends with a
newline. -/
def NInv (p : Printer) : Prop :=
  p.needsIndent = true → (p.buf = [] ∨ p.buf.head? = some '\n')

/-- `r` extends `p`'s buffer (printing only appends), keeps the
indentation level, and preserves the indentation invariant. -/
def Appends (p r : Printer) : Prop :=
  (∃ out, r.buf = out ++ p.buf) ∧ r.indentLevel = p.indentLevel ∧ (NInv p → NInv r)

/-! Well-formedness of type references with respect to the printer's panic
sites.  `tyOk false t` requires every `TypeRef::Fn` in `t` to carry at
least one element (the return type); `tyOk true t` additionally requires
every generic-argument list with `has_self_type` set to be nonempty (the
`split_first().unwrap()` site of `print_path`). -/

mutual
/-- Panic-freedom precondition on a `TypeRef` (see section comment). -/
def tyOk (cs : Bool) : TypeRef → Bool
  | .Never => true
  | .Placeholder => true
  | .Macro => true
  | .Error => true
  | .Tuple fields => tyOkList cs fields
  | .Path path => pathOk cs path
  | .RawPtr pointee _ => tyOk cs pointee
  | .Reference pointee _ _ => tyOk cs pointee
  | .Array elem _ => tyOk cs elem
  | .Slice elem => tyOk cs elem
  | .Fn args _ =>
    (match args with
      | .nil => false
      | .cons _ _ _ => true) && fnListOk cs args
  | .ImplTrait bounds => boundsOk cs bounds
  | .DynTrait bounds => boundsOk cs bounds

/-- `tyOk` over a tuple field list. -/
def tyOkList (cs : Bool) : TypeRefList → Bool
  | .nil => true
  | .cons hd tl => tyOk cs hd && tyOkList cs tl

/-- `tyOk` over a `Fn` parameter list. -/
def fnListOk (cs : Bool) : FnParamList → Bool
  | .nil => true
  | .cons _ ty tl => tyOk cs ty && fnListOk cs tl

/-- `tyOk` over a bound. -/
def boundOk (cs : Bool) : TypeBound → Bool
  | .Path path _ => pathOk cs path
  | .ForLifetime _ path => pathOk cs path
  | .Lifetime _ => true
  | .Error => true

/-- `tyOk` over a bound list. -/
def boundsOk (cs : Bool) : TypeBoundList → Bool
  | .nil => true
  | .cons hd tl => boundOk cs hd && boundsOk cs tl

/-- `tyOk` over an optional type. -/
def optTyOk (cs : Bool) : OptionTypeRef → Bool
  | .none => true
  | .some ty => tyOk cs ty

/-- `tyOk` over a path. -/
def pathOk (cs : Bool) : Path → Bool
  | .mk typeAnchor _ segments => optTyOk cs typeAnchor && segsOk cs segments

/-- `tyOk` over a segment list. -/
def segsOk (cs : Bool) : SegmentList → Bool
  | .nil => true
  | .cons _ args tl => optArgsOk cs args && segsOk cs tl

/-- `tyOk` over optional generic args. -/
def optArgsOk (cs : Bool) : OptionGenericArgs → Bool
  | .none => true
  | .some g => gargsOk cs g

/-- `tyOk` over generic args; when `cs` is set, `has_self_type` demands a
nonempty argument list. -/
def gargsOk (cs : Bool) : GenericArgs → Bool
  | .mk hasSelfType args bindings =>
    (if cs && hasSelfType then
        (match args with
          | .nil => false
          | .cons _ _ => true)
      else true) && argListOk cs args && bindingsOk cs bindings

/-- `tyOk` over a generic-argument list. -/
def argListOk (cs : Bool) : GenericArgList → Bool
  | .nil => true
  | .cons hd tl => argOk cs hd && argListOk cs tl

/-- `tyOk` over one generic argument. -/
def argOk (cs : Bool) : GenericArg → Bool
  | .Ty ty => tyOk cs ty
  | .Const _ => true
  | .Lifetime _ => true

/-- `tyOk` over a binding list. -/
def bindingsOk (cs : Bool) : BindingList → Bool
  | .nil => true
  | .cons _ bounds ty tl => boundsOk cs bounds && optTyOk cs ty && bindingsOk cs tl
end

/-! Concrete inputs used by the witnesses. -/

/-- Empty generic parameters. -/
def gp0 : GenericParams := ⟨[], [], []⟩

/-- A one-item tree: `pub struct Foo;`. -/
def sampleTree : ItemTree :=
  ⟨[], .cons (.Struct [] .Public (toL "Foo") .Unit gp0) .nil⟩

/-- A concrete record-shaped struct item. -/
def sampleRecordStruct : ModItem :=
  .Struct [] .Public (toL "S") (.Record [⟨.Public, toL "x", .Never, []⟩]) gp0

/-- A concrete tuple-shaped struct item. -/
def sampleTupleStruct : ModItem :=
  .Struct [] .Public (toL "T") (.Tuple [⟨.Public, toL "0", .Never, []⟩]) gp0

/-- A concrete unit-shaped union-free struct item. -/
def sampleUnitStruct : ModItem :=
  .Struct [] .Public (toL "U") .Unit gp0

/-- A concrete const item: `pub const _: _ = _;`. -/
def sampleConst : ModItem := .Const [] Option.none .Public .Placeholder

/-- A concrete static item: `pub static mut X: _ = _;`. -/
def sampleStatic : ModItem := .Static [] (toL "X") .Public true .Placeholder

/-- The path-panic input of `print_path`: a segment whose generic args
have `has_self_type` set but an empty argument list. -/
def selfTypePanicTy : TypeRef :=
  .Path (.mk .none .Plain (.cons (toL "S") (.some (.mk true .nil .nil)) .nil))

/-- A well-formed function pointer type `fn() -> _`. -/
def sampleFnTy : TypeRef := .Fn (.cons Option.none .Placeholder .nil) false

/-- A concrete database for the `crate_limits` witness: crate 0 records a
recursion-limit override of 64, every other crate records none. -/
def dbW : DefDatabase :=
  ⟨fun c => if c = 0 then ⟨Option.some 64⟩ else ⟨Option.none⟩⟩

/-- Two distinct concrete Locations. -/
def locW1 : Location := ⟨0, 1, 2, 3⟩

/-- Two distinct concrete Locations (second). -/
def locW2 : Location := ⟨0, 1, 2, 4⟩

/-- A concrete block body: a non-item statement, one direct item, and an
inner block with its own item. -/
def stmtsW : List Stmt :=
  [.other, .item (toL "f"), .inner [.item (toL "g")]]

namespace Query

/-- The witness program: query 0 reads input 0 and adds 1; all other
queries are constant 0 with no dependencies. -/
def progW : Program :=
  ⟨fun d =>
    if d = 0 then ⟨[.inp 0], fun vs => vs.headD 0 + 1⟩
    else ⟨[], fun _ => 0⟩⟩

/-- The witness operation sequence: set input 0 to 5, read query 0 (so it
gets cached), then edit input 0 to 7. -/
def opsW : List Op := [.set 0 5, .get (.q 0), .set 0 7]

end Query

/-! # Theorems -/

/-! ## Interning lemmas -/

/-- A found intern index addresses the Location it was assigned to. -/
theorem internFind_get {α : Type} [DecidableEq α] :
    ∀ (st : List α) (loc : α) (i : Nat),
      internFind st loc = Option.some i → st[i]? = Option.some loc := by
  intro st
  induction st with
  | nil => intro loc i h; simp [internFind] at h
  | cons x xs ih =>
    intro loc i h
    by_cases hx : x = loc
    · rw [internFind, if_pos hx] at h
      obtain rfl := Option.some_injective _ h
      simp [hx]
    · rw [internFind, if_neg hx] at h
      obtain ⟨j, hj, hji⟩ := Option.map_eq_some'.mp h
      subst hji
      simpa using ih loc j hj

/-- A found intern index lies inside the table. -/
theorem internFind_lt {α : Type} [DecidableEq α] (st : List α) (loc : α) (i : Nat)
    (h : internFind st loc = Option.some i) : i < st.length := by
  have := internFind_get st loc i h
  exact (List.getElem?_eq_some.mp this).1

/-- Appending a not-yet-interned Location makes it findable at the old
length. -/
theorem internFind_append_self {α : Type} [DecidableEq α] :
    ∀ (st : List α) (loc : α), internFind st loc = Option.none →
      internFind (st ++ [loc]) loc = Option.some st.length := by
  intro st
  induction st with
  | nil => intro loc _; simp [internFind]
  | cons x xs ih =>
    intro loc h
    have hx : ¬ x = loc := by
      intro hx
      simp [internFind, hx] at h
    have hxs : internFind xs loc = Option.none := by
      rw [internFind, if_neg hx] at h
      exact Option.map_eq_none'.mp h
    rw [List.cons_append, internFind, if_neg hx, ih loc hxs]
    simp

/-- C2: interning is idempotent — interning a Location again returns the
same Stable ID (and leaves the table unchanged) — and injective —
interning two distinct Locations yields distinct Stable IDs.  This covers
every interning query of `InternDatabase` (db.rs 32–62) uniformly: each is
an instance at its own Location type. -/
theorem intern_idempotent_injective {α : Type} [DecidableEq α] :
    (∀ (st : List α) (loc : α), intern (intern st loc).2 loc = intern st loc) ∧
    (∀ (st : List α) (loc1 loc2 : α), loc1 ≠ loc2 →
      (intern (intern st loc1).2 loc2).1 ≠ (intern st loc1).1) := by
  constructor
  · intro st loc
    cases h : internFind st loc with
    | some i => simp [intern, h]
    | none => simp [intern, h, internFind_append_self st loc h]
  · intro st loc1 loc2 hne
    cases h1 : internFind st loc1 with
    | some i1 =>
      cases h2 : internFind st loc2 with
      | some i2 =>
        simp [intern, h1, h2]
        intro heq
        apply hne
        have g1 := internFind_get st loc1 i1 h1
        have g2 := internFind_get st loc2 i2 h2
        rw [heq] at g2
        rw [g1] at g2
        exact Option.some_injective _ g2
      | none =>
        have hlt := internFind_lt st loc1 i1 h1
        simp [intern, h1, h2]
        omega
    | none =>
      cases h2 : internFind (st ++ [loc1]) loc2 with
      | some i2 =>
        simp [intern, h1, h2]
        intro heq
        apply hne
        have g2 := internFind_get _ loc2 i2 h2
        rw [heq, List.getElem?_concat_length] at g2
        exact Option.some_injective _ g2
      | none =>
        simp [intern, h1, h2]

/-- Witness for C2 at two concrete distinct Locations. -/
theorem intern_idempotent_injective_witness :
    locW1 ≠ locW2 ∧
      (intern (intern ([] : List Location) locW1).2 locW2).1 ≠
        (intern ([] : List Location) locW1).1 :=
  ⟨by decide, intern_idempotent_injective.2 [] locW1 locW2 (by decide)⟩

/-- C3: looking up the Stable ID returned by `intern` yields the Location
back; resolvable ids stay resolvable under further interning (lookup is
total on every id ever returned); and looking up an id beyond the table —
one never interned — is the fatal `none`, the model of the
internal-invariant panic, not a recoverable value. -/
theorem lookup_left_inverse_of_intern {α : Type} [DecidableEq α] :
    (∀ (st : List α) (loc : α),
      lookup (intern st loc).2 (intern st loc).1 = Option.some loc) ∧
    (∀ (st : List α) (id : Nat) (v : α), lookup st id = Option.some v →
      ∀ loc, lookup (intern st loc).2 id = Option.some v) ∧
    (∀ (st : List α) (id : Nat), st.length ≤ id → lookup st id = Option.none) := by
  refine ⟨?_, ?_, ?_⟩
  · intro st loc
    cases h : internFind st loc with
    | some i =>
      simp [intern, h, lookup]
      exact internFind_get st loc i h
    | none =>
      simp [intern, h, lookup]
  · intro st id v hv loc
    cases h : internFind st loc with
    | some i => simpa [intern, h, lookup] using hv
    | none =>
      simp [intern, h, lookup] at hv ⊢
      have hlt : id < st.length := (List.getElem?_eq_some.mp hv).1
      rw [List.getElem?_append_left hlt]
      exact hv
  · intro st id h
    simp [lookup]
    omega

/-- Witness for C3: a fresh intern of a concrete Location, a stability
instance, and a never-interned id. -/
theorem lookup_left_inverse_of_intern_witness :
    lookup (intern ([] : List Location) locW1).2 (intern [] locW1).1 = Option.some locW1 ∧
      (lookup [locW1] 0 = Option.some locW1 ∧
        lookup (intern [locW1] locW2).2 0 = Option.some locW1) ∧
      (([locW1] : List Location).length ≤ 3 ∧ lookup [locW1] 3 = Option.none) :=
  ⟨lookup_left_inverse_of_intern.1 [] locW1,
    ⟨by decide, lookup_left_inverse_of_intern.2.1 [locW1] 0 locW1 (by decide) locW2⟩,
    ⟨by decide, lookup_left_inverse_of_intern.2.2 [locW1] 3 (by decide)⟩⟩

/-- C4: `crate_limits` returns the Definition Map's recorded
recursion-limit override when present and the rustc default 128 when
absent (db.rs 199–206). -/
theorem crate_limits_default_or_override (db : DefDatabase) (c : CrateId) :
    ((crate_def_map db c).recursion_limit = Option.none →
      (crate_limits db c).recursion_limit = 128) ∧
    (∀ n, (crate_def_map db c).recursion_limit = Option.some n →
      (crate_limits db c).recursion_limit = n) := by
  constructor
  · intro h
    simp [crate_limits, h]
  · intro n h
    simp [crate_limits, h]

/-- Witness for C4: a crate with override 64 and a crate without one. -/
theorem crate_limits_default_or_override_witness :
    ((crate_def_map dbW 1).recursion_limit = Option.none ∧
      (crate_limits dbW 1).recursion_limit = 128) ∧
    ((crate_def_map dbW 0).recursion_limit = Option.some 64 ∧
      (crate_limits dbW 0).recursion_limit = 64) :=
  ⟨⟨by decide, (crate_limits_default_or_override dbW 1).1 (by decide)⟩,
    ⟨by decide, (crate_limits_default_or_override dbW 0).2 64 (by decide)⟩⟩

/-- C6: the transparent query `crate_def_map` forwards to the cached
query `crate_def_map_query` and returns the same value (db.rs 72–77,
189–192); being `salsa::transparent`, the wrapper caches nothing of its
own — here it is literally a plain call. -/
theorem crate_def_map_forwards (db : DefDatabase) (krate : CrateId) :
    crate_def_map db krate = db.crate_def_map_query krate := rfl

/-- C5: `block_def_map` returns the distinguished absence `none` exactly
when the block has no item-like declarations directly inside it (items of
inner blocks do not count), and otherwise a map containing exactly the
direct items. -/
theorem block_def_map_spec (stmts : List Stmt) :
    (block_def_map stmts = Option.none ↔ directItems stmts = []) ∧
    (directItems stmts ≠ [] →
      block_def_map stmts = Option.some ⟨directItems stmts⟩) ∧
    (∀ innerStmts, block_def_map (Stmt.inner innerStmts :: stmts) = block_def_map stmts) := by
  refine ⟨?_, ?_, ?_⟩
  · by_cases h : directItems stmts = [] <;> simp [block_def_map, h]
  · intro h
    simp [block_def_map, h]
  · intro innerStmts
    simp [block_def_map, directItems]

/-- Witness for C5 at a concrete block body with one direct item and one
inner block. -/
theorem block_def_map_spec_witness :
    directItems stmtsW ≠ [] ∧
      block_def_map stmtsW = Option.some ⟨directItems stmtsW⟩ :=
  ⟨by decide, (block_def_map_spec stmtsW).2.1 (by decide)⟩

/-- C9: the item-tree rendering is deterministic — it is a pure function
of the tree, so structurally equal trees render to byte-identical text
(the printer consults no environment and only performs keyed lookups, no
iteration over unordered containers). -/
theorem print_item_tree_deterministic (t1 t2 : ItemTree) (h : t1 = t2) :
    printItemTree t1 = printItemTree t2 := by rw [h]

/-- Witness for C9 at a concrete tree. -/
theorem print_item_tree_deterministic_witness :
    sampleTree = sampleTree ∧ printItemTree sampleTree = printItemTree sampleTree :=
  ⟨rfl, print_item_tree_deterministic sampleTree sampleTree rfl⟩

/-! ## The incremental query engine: recompute-from-scratch equivalence -/

namespace Query

/-- Inputs evaluate directly at any fuel. -/
theorem denoteF_inp (P : Program) (inputs : InputId → Value) (fuel : Nat) (i : InputId) :
    denoteF P inputs fuel (.inp i) = inputs i := by
  cases fuel <;> rfl

/-- One unfolding of the fuelled denotation at a derived query. -/
theorem denoteF_q (P : Program) (inputs : InputId → Value) (fuel : Nat) (d : QueryId) :
    denoteF P inputs (fuel + 1) (.q d) =
      (P.queries d).f ((P.queries d).deps.map (denoteF P inputs fuel)) := rfl

/-- The fuelled denotation is fuel-independent once the fuel covers the
key's rank. -/
theorem denoteF_congr (P : Program) (hWf : WfProgram P) (inputs : InputId → Value) :
    ∀ a b k, kRank k ≤ a → kRank k ≤ b →
      denoteF P inputs a k = denoteF P inputs b k := by
  intro a
  induction a with
  | zero =>
    intro b k ha _
    cases k with
    | inp i => simp [denoteF_inp]
    | q d => simp [kRank] at ha
  | succ a ih =>
    intro b k ha hb
    cases k with
    | inp i => simp [denoteF_inp]
    | q d =>
      cases b with
      | zero => simp [kRank] at hb
      | succ b =>
        rw [denoteF_q, denoteF_q]
        congr 1
        apply List.map_congr_left
        intro k' hk'
        have hr := hWf d k' hk'
        have ha' : d ≤ a := by simpa [kRank] using ha
        have hb' : d ≤ b := by simpa [kRank] using hb
        exact ih b k' (le_trans hr ha') (le_trans hr hb')

/-- The from-scratch denotation of a derived query is its function at its
dependencies' denotations. -/
theorem denote_q (P : Program) (hWf : WfProgram P) (inputs : InputId → Value) (d : QueryId) :
    denote P inputs (.q d) =
      (P.queries d).f ((P.queries d).deps.map (denote P inputs)) := by
  rw [denote]
  show denoteF P inputs (d + 1) (.q d) = _
  rw [denoteF_q]
  congr 1
  apply List.map_congr_left
  intro k' hk'
  exact denoteF_congr P hWf inputs d (kRank k') k' (hWf d k' hk') le_rfl

/-- Inputs are served directly at any fuel. -/
theorem getKeyF_inp (P : Program) (fuel : Nat) (db : DB) (i : InputId) :
    getKeyF P fuel db (.inp i) = (db.inputs i, db) := by
  cases fuel <;> rfl

/-- One unfolding of the fuelled engine at a derived query. -/
theorem getKeyF_q (P : Program) (fuel : Nat) (db : DB) (d : QueryId) :
    getKeyF P (fuel + 1) db (.q d) = getStep P (getKeyF P fuel) db (.q d) := rfl

/-- Storing a denotation-correct entry at the current revision preserves
the engine invariant. -/
theorem Inv_setCache_correct (P : Program) (hWf : WfProgram P) (db1 : DB) (d : QueryId)
    (v : Value) (vals : List Value) (hInv1 : Inv P db1)
    (hvals : vals = (P.queries d).deps.map (denote P db1.inputs))
    (hval : v = (P.queries d).f vals) :
    Inv P (setCache db1 d ⟨v, vals, db1.revision⟩) := by
  intro d' e' hce
  by_cases hdd : d' = d
  · subst hdd
    simp [setCache] at hce
    subst hce
    refine ⟨hval, ?_, fun _ => ⟨?_, ?_⟩⟩
    · simp [setCache]
    · simpa [setCache] using hvals
    · show v = denote P db1.inputs (.q d')
      rw [denote_q P hWf, ← hvals, hval]
  · simp [setCache, hdd] at hce
    have := hInv1 d' e' hce
    simpa [setCache] using this

/-- The main correctness lemma: with enough fuel, under the invariant, a
demanded key returns its from-scratch denotation, and the invariant, the
inputs and the revision are preserved. -/
theorem getKeyF_correct (P : Program) (hWf : WfProgram P) :
    ∀ fuel k db, Inv P db → kRank k ≤ fuel →
      (getKeyF P fuel db k).1 = denote P db.inputs k ∧
      Inv P (getKeyF P fuel db k).2 ∧
      (getKeyF P fuel db k).2.inputs = db.inputs ∧
      (getKeyF P fuel db k).2.revision = db.revision := by
  intro fuel
  induction fuel with
  | zero =>
    intro k db hInv hk
    cases k with
    | inp i =>
      refine ⟨?_, ?_, ?_, ?_⟩ <;> simp [getKeyF_inp, denote, denoteF_inp, hInv]
    | q d => simp [kRank] at hk
  | succ fuel ih =>
    intro k db hInv hk
    cases k with
    | inp i =>
      refine ⟨?_, ?_, ?_, ?_⟩ <;> simp [getKeyF_inp, denote, denoteF_inp, hInv]
    | q d =>
      have hd : d ≤ fuel := by simpa [kRank] using hk
      have hlist : ∀ (ks : List Key) (db : DB), Inv P db →
          (∀ k' ∈ ks, kRank k' ≤ fuel) →
          (getList (getKeyF P fuel) db ks).1 = ks.map (denote P db.inputs) ∧
          Inv P (getList (getKeyF P fuel) db ks).2 ∧
          (getList (getKeyF P fuel) db ks).2.inputs = db.inputs ∧
          (getList (getKeyF P fuel) db ks).2.revision = db.revision := by
        intro ks
        induction ks with
        | nil =>
          intro db hI _
          refine ⟨?_, ?_, ?_, ?_⟩ <;> simp [getList, hI]
        | cons k' ks ihl =>
          intro db hI hks
          obtain ⟨h1, h2, h3, h4⟩ := ih k' db hI (hks k' (by simp))
          obtain ⟨g1, g2, g3, g4⟩ :=
            ihl (getKeyF P fuel db k').2 h2 (fun x hx => hks x (by simp [hx]))
          refine ⟨?_, ?_, ?_, ?_⟩
          · simp only [getList, List.map_cons]
            rw [h1, g1, h3]
          · simpa [getList] using g2
          · simp only [getList]
            rw [g3, h3]
          · simp only [getList]
            rw [g4, h4]
      have hdeps : ∀ k' ∈ (P.queries d).deps, kRank k' ≤ fuel :=
        fun k' hk' => le_trans (hWf d k' hk') hd
      obtain ⟨l1, l2, l3, l4⟩ := hlist (P.queries d).deps db hInv hdeps
      rw [getKeyF_q]
      cases hc : db.cache d with
      | some e =>
        by_cases hv : e.verifiedAt = db.revision
        · have hcur := (hInv d e hc).2.2 hv
          refine ⟨?_, ?_, ?_, ?_⟩ <;> simp [getStep, hc, hv, hInv, hcur.2]
        · by_cases hvals : (getList (getKeyF P fuel) db (P.queries d).deps).1 = e.depValues
          · have hfe : e.value = (P.queries d).f e.depValues := (hInv d e hc).1
            have hdv : e.depValues = (P.queries d).deps.map (denote P db.inputs) := by
              rw [← hvals, l1]
            have hstore : Inv P (setCache (getList (getKeyF P fuel) db (P.queries d).deps).2 d
                ⟨e.value, e.depValues, (getList (getKeyF P fuel) db (P.queries d).deps).2.revision⟩) := by
              apply Inv_setCache_correct P hWf _ d _ _ l2
              · rw [l3]; exact hdv
              · exact hfe
            refine ⟨?_, ?_, ?_, ?_⟩
            · simp [getStep, hc, hv, hvals]
              rw [hfe, hdv, ← denote_q P hWf]
            · simpa [getStep, hc, hv, hvals] using hstore
            · simpa [getStep, hc, hv, hvals, setCache] using l3
            · simpa [getStep, hc, hv, hvals, setCache] using l4
          · have hstore : Inv P (setCache (getList (getKeyF P fuel) db (P.queries d).deps).2 d
                ⟨(P.queries d).f (getList (getKeyF P fuel) db (P.queries d).deps).1,
                  (getList (getKeyF P fuel) db (P.queries d).deps).1,
                  (getList (getKeyF P fuel) db (P.queries d).deps).2.revision⟩) := by
              apply Inv_setCache_correct P hWf _ d _ _ l2
              · rw [l3]; exact l1
              · rfl
            refine ⟨?_, ?_, ?_, ?_⟩
            · simp [getStep, hc, hv, hvals]
              rw [l1, ← denote_q P hWf]
            · simpa [getStep, hc, hv, hvals] using hstore
            · simpa [getStep, hc, hv, hvals, setCache] using l3
            · simpa [getStep, hc, hv, hvals, setCache] using l4
      | none =>
        have hstore : Inv P (setCache (getList (getKeyF P fuel) db (P.queries d).deps).2 d
            ⟨(P.queries d).f (getList (getKeyF P fuel) db (P.queries d).deps).1,
              (getList (getKeyF P fuel) db (P.queries d).deps).1,
              (getList (getKeyF P fuel) db (P.queries d).deps).2.revision⟩) := by
          apply Inv_setCache_correct P hWf _ d _ _ l2
          · rw [l3]; exact l1
          · rfl
        refine ⟨?_, ?_, ?_, ?_⟩
        · simp [getStep, hc]
          rw [l1, ← denote_q P hWf]
        · simpa [getStep, hc] using hstore
        · simpa [getStep, hc, setCache] using l3
        · simpa [getStep, hc, setCache] using l4

/-- Running an operation sequence preserves the invariant and tracks the
edited input state. -/
theorem runOps_Inv (P : Program) (hWf : WfProgram P) :
    ∀ (ops : List Op) (db : DB), Inv P db →
      Inv P (runOps P db ops) ∧
      (runOps P db ops).inputs = applyEdits db.inputs ops := by
  intro ops
  induction ops with
  | nil => intro db h; exact ⟨h, rfl⟩
  | cons op rest ih =>
    intro db h
    cases op with
    | set i v =>
      have hI : Inv P (setInput db i v) := by
        intro d e hce
        have hce' : db.cache d = Option.some e := hce
        obtain ⟨a, b, _⟩ := h d e hce'
        refine ⟨a, ?_, ?_⟩
        · show e.verifiedAt ≤ db.revision + 1
          omega
        · intro hv
          exfalso
          have : e.verifiedAt = db.revision + 1 := hv
          omega
      simpa [runOps, stepOp, applyEdits, setInput] using ih (setInput db i v) hI
    | get k =>
      obtain ⟨_, v2, v3, _⟩ := getKeyF_correct P hWf (kRank k) k db h le_rfl
      obtain ⟨w1, w2⟩ := ih _ v2
      refine ⟨w1, ?_⟩
      show (runOps P (getKeyF P (kRank k) db k).2 rest).inputs = applyEdits db.inputs rest
      rw [w2, v3]

/-- C1 (modelled from spec §4.3): after any finite operation sequence —
input edits and demanded reads in any order — a demanded derived query
returns exactly the value obtained by recomputing from scratch against
the final input state, and every cache entry verified at the current
revision holds that from-scratch value. -/
theorem incremental_recompute_from_scratch (P : Program) (hWf : WfProgram P)
    (inputs0 : InputId → Value) (ops : List Op) (k : Key) :
    (getKey P (runOps P (emptyDB inputs0) ops) k).1 =
      denote P (applyEdits inputs0 ops) k ∧
    (∀ d e, (runOps P (emptyDB inputs0) ops).cache d = Option.some e →
      e.verifiedAt = (runOps P (emptyDB inputs0) ops).revision →
      e.value = denote P (applyEdits inputs0 ops) (.q d)) := by
  have h0 : Inv P (emptyDB inputs0) := by
    intro d e hce
    simp [emptyDB] at hce
  obtain ⟨hI, hInp⟩ := runOps_Inv P hWf ops (emptyDB inputs0) h0
  constructor
  · obtain ⟨v1, _, _, _⟩ :=
      getKeyF_correct P hWf (kRank k) k (runOps P (emptyDB inputs0) ops) hI le_rfl
    rw [getKey, v1, hInp]
    rfl
  · intro d e hce hv
    have := (hI d e hce).2.2 hv
    rw [this.2, hInp]
    rfl

/-- `WfProgram` holds for the witness program. -/
theorem progW_wf : WfProgram progW := by
  intro d k hk
  by_cases hd : d = 0
  · subst hd
    simp [progW] at hk
    subst hk
    simp [kRank]
  · simp [progW, hd] at hk

/-- Witness for C1: the concrete program and operation sequence (an edit,
a cached read, a further edit), read back at query 0. -/
theorem incremental_recompute_from_scratch_witness :
    WfProgram progW ∧
      (getKey progW (runOps progW (emptyDB fun _ => 0) opsW) (.q 0)).1 =
        denote progW (applyEdits (fun _ => 0) opsW) (.q 0) :=
  ⟨progW_wf,
    (incremental_recompute_from_scratch progW progW_wf (fun _ => 0) opsW (.q 0)).1⟩

end Query

/-! ## Printer-state lemmas -/

/-- Inversion of `Option` bind against `some`. -/
theorem optBind_eq_some {α β : Type} (o : Option α) (f : α → Option β) (b : β) :
    (o >>= f) = some b ↔ ∃ a, o = some a ∧ f a = some b := by
  cases o <;> simp

/-- `pushSeg` only prepends (in reversed representation) text to the
buffer: the segment, possibly after an inserted newline and the
indentation prefix. -/
theorem pushSeg_buf (p : Printer) (line : List Char) :
    ∃ ins, (pushSeg p line).buf = line.reverse ++ ins ++ p.buf := by
  unfold pushSeg
  by_cases h : p.needsIndent
  · simp only [h]
    rcases hb : p.buf with _ | ⟨c, rest⟩
    · exact ⟨indentChars p.indentLevel, by simp⟩
    · by_cases hc : c = '\n'
      · subst hc
        exact ⟨indentChars p.indentLevel, by simp⟩
      · refine ⟨indentChars p.indentLevel ++ ['\n'], ?_⟩
        simp [hc]
  · simp [h]

/-- `pushSeg` keeps the indentation level. -/
theorem pushSeg_indentLevel (p : Printer) (line : List Char) :
    (pushSeg p line).indentLevel = p.indentLevel := by
  unfold pushSeg
  by_cases h : p.needsIndent <;> simp [h]

/-- `pushSeg` re-establishes the indentation invariant: indentation is
pending afterwards only when the pushed segment ended with a newline,
which is then the last buffer character. -/
theorem pushSeg_NInv (p : Printer) (line : List Char) : NInv (pushSeg p line) := by
  intro hn
  right
  have hdec : (pushSeg p line).needsIndent = decide (line.getLast? = some '\n') := by
    unfold pushSeg
    by_cases h : p.needsIndent <;> simp [h]
  rw [hdec] at hn
  have hlast : line.getLast? = some '\n' := of_decide_eq_true hn
  obtain ⟨ins, hq⟩ := pushSeg_buf p line
  rw [hq]
  have hrev : line.reverse.head? = some '\n' := by rw [List.head?_reverse]; exact hlast
  cases hr : line.reverse with
  | nil => rw [hr] at hrev; simp at hrev
  | cons c cs =>
    rw [hr] at hrev
    simp only [List.head?_cons, Option.some.injEq] at hrev
    simp [hr, hrev]

/-- `Appends` is reflexive. -/
theorem appends_refl (p : Printer) : Appends p p := ⟨⟨[], rfl⟩, rfl, id⟩

/-- `Appends` is transitive. -/
theorem appends_trans {p q r : Printer} (h1 : Appends p q) (h2 : Appends q r) :
    Appends p r := by
  obtain ⟨⟨o1, b1⟩, l1, n1⟩ := h1
  obtain ⟨⟨o2, b2⟩, l2, n2⟩ := h2
  exact ⟨⟨o2 ++ o1, by rw [b2, b1, List.append_assoc]⟩, l2.trans l1, fun h => n2 (n1 h)⟩

/-- A segment push is an `Appends` step. -/
theorem appends_pushSeg (p : Printer) (line : List Char) : Appends p (pushSeg p line) := by
  obtain ⟨ins, hq⟩ := pushSeg_buf p line
  exact ⟨⟨line.reverse ++ ins, by rw [hq, List.append_assoc]⟩,
    pushSeg_indentLevel p line, fun _ => pushSeg_NInv p line⟩

/-- Every write is an `Appends` step. -/
theorem appends_wr (p : Printer) (s : List Char) : Appends p (wr p s) := by
  suffices h : ∀ (segs : List (List Char)) (p : Printer), Appends p (segs.foldl pushSeg p) by
    exact h _ p
  intro segs
  induction segs with
  | nil => intro p; exact appends_refl p
  | cons l ls ih => intro p; exact appends_trans (appends_pushSeg p l) (ih (pushSeg p l))

/-- A conditional separator write is an `Appends` step. -/
theorem appends_ite_wrS (p : Printer) (c : Prop) [Decidable c] (s : String) :
    Appends p (if c then wrS p s else p) := by
  by_cases h : c
  · simp only [if_pos h]; exact appends_wr p (toL s)
  · simp only [if_neg h]; exact appends_refl p

/-- The `super::` loop is an `Appends` step. -/
theorem appends_wrSuperN (p : Printer) (n : Nat) : Appends p (wrSuperN p n) := by
  induction n generalizing p with
  | zero => exact appends_refl p
  | succ n ih => exact appends_trans (appends_wr p _) (ih _)

/-- `blank` is an `Appends` step. -/
theorem appends_blank (p : Printer) : Appends p (blank p) := by
  unfold blank
  split
  · exact appends_refl p
  · exact appends_refl p
  · exact appends_refl p
  · next heq =>
    refine ⟨⟨['\n'], by simp⟩, rfl, fun _ => ?_⟩
    intro _
    right
    rfl
  · next heq _ =>
    refine ⟨⟨['\n', '\n'], by simp⟩, rfl, fun _ => ?_⟩
    intro _
    right
    rfl

/-- `whitespace` is an `Appends` step. -/
theorem appends_whitespace (p : Printer) : Appends p (whitespace p) := by
  unfold whitespace
  split
  · exact appends_refl p
  · exact appends_refl p
  · exact appends_refl p
  · next _ hnil hnl _ =>
    refine ⟨⟨[' '], by simp⟩, rfl, fun hi => ?_⟩
    intro hn
    exfalso
    rcases hi hn with h | h
    · exact hnil h
    · cases hb : p.buf with
      | nil => exact hnil hb
      | cons c tail =>
        rw [hb] at h
        simp only [List.head?_cons, Option.some.injEq] at h
        exact hnl tail (by rw [hb, h])

/-! ## The printers only append to the buffer -/

/-- Inversion of a bound `Option` computation against `some`. -/
theorem bind_some_inv {α β : Type} {o : Option α} {f : α → Option β} {b : β}
    (h : (o >>= f) = some b) : ∃ a, o = some a ∧ f a = some b :=
  (optBind_eq_some o f b).mp h


/-- Unfolding of `printBindings` at the empty binding list. -/
theorem printBindings_nil (p : Printer) (first : Bool) :
    printBindings p first .nil = some p := rfl

/-- Unfolding of `printBindings` at a binding with no bounds and no
equated type (second). -/
theorem printBindings_cons_nil_none (p : Printer) (first : Bool) (name : Str)
    (tl : BindingList) :
    printBindings p first (.cons name .nil .none tl) =
      printBindings (wr (if !first then wrS p ", " else p) name) false tl := rfl

/-- Unfolding of `printBindings` at a binding with no bounds and an
equated type. -/
theorem printBindings_cons_nil_some (p : Printer) (first : Bool) (name : Str)
    (t : TypeRef) (tl : BindingList) :
    printBindings p first (.cons name .nil (.some t) tl) =
      (printTypeRef (wrS (wr (if !first then wrS p ", " else p) name) " = ") t >>=
        fun q => printBindings q false tl) := rfl

/-- Unfolding of `printBindings` at a binding with bounds and no equated
type. -/
theorem printBindings_cons_cons_none (p : Printer) (first : Bool) (name : Str)
    (b : TypeBound) (bs : TypeBoundList) (tl : BindingList) :
    printBindings p first (.cons name (.cons b bs) .none tl) =
      (printTypeBounds (wrS (wr (if !first then wrS p ", " else p) name) ": ") 0
          (.cons b bs) >>=
        fun q => printBindings q false tl) := rfl

/-- Unfolding of `printBindings` at a binding with bounds and an equated
type. -/
theorem printBindings_cons_cons_some (p : Printer) (first : Bool) (name : Str)
    (b : TypeBound) (bs : TypeBoundList) (t : TypeRef) (tl : BindingList) :
    printBindings p first (.cons name (.cons b bs) (.some t) tl) =
      (printTypeBounds (wrS (wr (if !first then wrS p ", " else p) name) ": ") 0
          (.cons b bs) >>=
        fun q => printTypeRef (wrS q " = ") t >>= fun q2 => printBindings q2 false tl) := rfl

set_option maxHeartbeats 1000000 in
mutual
/-- Printing a type reference only appends to the buffer, keeps the
indentation level, and preserves the indentation invariant. -/
theorem printTypeRef_appends :
    ∀ (t : TypeRef) (p r : Printer), printTypeRef p t = some r → Appends p r
  | .Never, p, r, h => by
    simp only [printTypeRef, Option.some.injEq] at h
    subst h
    exact appends_wr p _
  | .Placeholder, p, r, h => by
    simp only [printTypeRef, Option.some.injEq] at h
    subst h
    exact appends_wr p _
  | .Macro, p, r, h => by
    simp only [printTypeRef, Option.some.injEq] at h
    subst h
    exact appends_wr p _
  | .Error, p, r, h => by
    simp only [printTypeRef, Option.some.injEq] at h
    subst h
    exact appends_wr p _
  | .Tuple fields, p, r, h => by
    simp only [printTypeRef] at h
    obtain ⟨p1, h1, h2⟩ := bind_some_inv h
    obtain rfl := Option.some_injective _ h2
    exact appends_trans (appends_wr p _)
      (appends_trans (printTypeRefs_appends fields _ 0 p1 h1) (appends_wr p1 _))
  | .Path path, p, r, h => by
    simp only [printTypeRef] at h
    exact printPath_appends path p r h
  | .RawPtr pointee mtbl, p, r, h => by
    simp only [printTypeRef] at h
    exact appends_trans (appends_wr p _) (printTypeRef_appends pointee _ r h)
  | .Reference pointee lt mtbl, p, r, h => by
    simp only [printTypeRef] at h
    cases lt with
    | none =>
      simp only at h
      exact appends_trans (appends_wr p _)
        (appends_trans (appends_wr _ _) (printTypeRef_appends pointee _ r h))
    | some n =>
      simp only at h
      exact appends_trans (appends_wr p _)
        (appends_trans (appends_wr _ _)
          (appends_trans (appends_wr _ _) (printTypeRef_appends pointee _ r h)))
  | .Array elem len, p, r, h => by
    simp only [printTypeRef] at h
    obtain ⟨p1, h1, h2⟩ := bind_some_inv h
    obtain rfl := Option.some_injective _ h2
    exact appends_trans (appends_wr p _)
      (appends_trans (printTypeRef_appends elem _ p1 h1) (appends_wr p1 _))
  | .Slice elem, p, r, h => by
    simp only [printTypeRef] at h
    obtain ⟨p1, h1, h2⟩ := bind_some_inv h
    obtain rfl := Option.some_injective _ h2
    exact appends_trans (appends_wr p _)
      (appends_trans (printTypeRef_appends elem _ p1 h1) (appends_wr p1 _))
  | .Fn .nil varargs, p, r, h => by
    simp only [printTypeRef] at h
    exact Option.noConfusion h
  | .Fn (.cons nm ty tl) varargs, p, r, h => by
    simp only [printTypeRef] at h
    exact appends_trans (appends_wr p _)
      (printFnAux_appends (.cons nm ty tl) _ 0 varargs r h)
  | .ImplTrait bounds, p, r, h => by
    simp only [printTypeRef] at h
    exact appends_trans (appends_wr p _) (printTypeBounds_appends bounds _ 0 r h)
  | .DynTrait bounds, p, r, h => by
    simp only [printTypeRef] at h
    exact appends_trans (appends_wr p _) (printTypeBounds_appends bounds _ 0 r h)

termination_by t _ _ _ => sizeOf t

/-- The `Fn` argument/return loop only appends. -/
theorem printFnAux_appends :
    ∀ (l : FnParamList) (p : Printer) (i : Nat) (varargs : Bool) (r : Printer),
      printFnAux p i varargs l = some r → Appends p r
  | .nil, p, i, varargs, r, h => by
    simp only [printFnAux] at h
    exact Option.noConfusion h
  | .cons nm ty .nil, p, i, varargs, r, h => by
    simp only [printFnAux] at h
    refine appends_trans ?_ (appends_trans (appends_wr _ _) (printTypeRef_appends ty _ r h))
    by_cases hv : varargs
    · simp only [hv, if_true]
      by_cases hi : i = 0
      · simp only [hi, if_pos rfl]
        exact appends_wr p _
      · simp only [if_neg hi]
        exact appends_wr p _
    · simp only [hv, if_false]
      exact appends_refl p
  | .cons nm ty (.cons nm2 ty2 tl), p, i, varargs, r, h => by
    simp only [printFnAux] at h
    obtain ⟨p1, h1, h2⟩ := bind_some_inv h
    exact appends_trans (appends_ite_wrS p _ _)
      (appends_trans (printTypeRef_appends ty _ p1 h1)
        (printFnAux_appends (.cons nm2 ty2 tl) p1 (i + 1) varargs r h2))

termination_by l _ _ _ _ _ => sizeOf l
/-- The tuple-field loop only appends. -/
theorem printTypeRefs_appends :
    ∀ (l : TypeRefList) (p : Printer) (i : Nat) (r : Printer),
      printTypeRefs p i l = some r → Appends p r
  | .nil, p, i, r, h => by
    simp only [printTypeRefs, Option.some.injEq] at h
    subst h
    exact appends_refl p
  | .cons hd tl, p, i, r, h => by
    simp only [printTypeRefs] at h
    obtain ⟨p1, h1, h2⟩ := bind_some_inv h
    exact appends_trans (appends_ite_wrS p _ _)
      (appends_trans (printTypeRef_appends hd _ p1 h1)
        (printTypeRefs_appends tl p1 (i + 1) r h2))

termination_by l _ _ _ _ => sizeOf l

/-- The bound loop only appends. -/
theorem printTypeBounds_appends :
    ∀ (l : TypeBoundList) (p : Printer) (i : Nat) (r : Printer),
      printTypeBounds p i l = some r → Appends p r
  | .nil, p, i, r, h => by
    simp only [printTypeBounds, Option.some.injEq] at h
    subst h
    exact appends_refl p
  | .cons (.Path path .None) tl, p, i, r, h => by
    simp only [printTypeBounds] at h
    obtain ⟨p1, h1, h2⟩ := bind_some_inv h
    exact appends_trans (appends_ite_wrS p _ _)
      (appends_trans (printPath_appends path _ p1 h1)
        (printTypeBounds_appends tl p1 (i + 1) r h2))
  | .cons (.Path path .Maybe) tl, p, i, r, h => by
    simp only [printTypeBounds] at h
    obtain ⟨p1, h1, h2⟩ := bind_some_inv h
    exact appends_trans (appends_ite_wrS p _ _)
      (appends_trans (appends_wr _ _)
        (appends_trans (printPath_appends path _ p1 h1)
          (printTypeBounds_appends tl p1 (i + 1) r h2)))
  | .cons (.ForLifetime lifetimes path) tl, p, i, r, h => by
    simp only [printTypeBounds] at h
    obtain ⟨p1, h1, h2⟩ := bind_some_inv h
    exact appends_trans (appends_ite_wrS p _ _)
      (appends_trans (appends_wr _ _)
        (appends_trans (printPath_appends path _ p1 h1)
          (printTypeBounds_appends tl p1 (i + 1) r h2)))
  | .cons (.Lifetime lt) tl, p, i, r, h => by
    simp only [printTypeBounds] at h
    obtain ⟨p1, h1, h2⟩ := bind_some_inv h
    obtain rfl := Option.some_injective _ h1
    exact appends_trans (appends_ite_wrS p _ _)
      (appends_trans (appends_wr _ _) (printTypeBounds_appends tl _ (i + 1) r h2))
  | .cons .Error tl, p, i, r, h => by
    simp only [printTypeBounds] at h
    obtain ⟨p1, h1, h2⟩ := bind_some_inv h
    obtain rfl := Option.some_injective _ h1
    exact appends_trans (appends_ite_wrS p _ _)
      (appends_trans (appends_wr _ _) (printTypeBounds_appends tl _ (i + 1) r h2))

termination_by l _ _ _ _ => sizeOf l

/-- `print_path` only appends. -/
theorem printPath_appends :
    ∀ (pa : Path) (p r : Printer), printPath p pa = some r → Appends p r
  | .mk (.some anchor) kind segments, p, r, h => by
    simp only [printPath, Option.pure_def, Option.some_bind] at h
    obtain ⟨p2, h2, h1⟩ := bind_some_inv h
    exact appends_trans (appends_wr p _)
      (appends_trans (printTypeRef_appends anchor _ p2 h2)
        (appends_trans (appends_wr p2 _) (printSegments_appends segments _ 0 r h1)))
  | .mk .none kind segments, p, r, h => by
    simp only [printPath, Option.pure_def, Option.some_bind] at h
    refine appends_trans ?_ (printSegments_appends segments _ 0 r h)
    cases kind with
    | Plain => exact appends_refl p
    | Super n =>
      cases n with
      | zero => exact appends_wr p _
      | succ n => exact appends_wrSuperN p _
    | Crate => exact appends_wr p _
    | Abs => exact appends_wr p _
    | DollarCrate k => exact appends_wr p _

termination_by pa _ _ _ => sizeOf pa

/-- The path-segment loop only appends. -/
theorem printSegments_appends :
    ∀ (l : SegmentList) (p : Printer) (i : Nat) (r : Printer),
      printSegments p i l = some r → Appends p r
  | .nil, p, i, r, h => by
    simp only [printSegments, Option.some.injEq] at h
    subst h
    exact appends_refl p
  | .cons name .none tl, p, i, r, h => by
    simp only [printSegments, Option.pure_def, Option.some_bind] at h
    exact appends_trans (appends_ite_wrS p _ _)
      (appends_trans (appends_wr _ _) (printSegments_appends tl _ (i + 1) r h))
  | .cons name (.some (.mk true .nil bindings)) tl, p, i, r, h => by
    simp only [printSegments, reduceIte, Option.none_bind] at h
    exact Option.noConfusion h
  | .cons name (.some (.mk true (.cons selfTy restArgs) bindings)) tl, p, i, r, h => by
    simp only [printSegments, reduceIte, Option.pure_def, Option.some_bind] at h
    obtain ⟨p2, h2, hh⟩ := bind_some_inv h
    obtain ⟨pb, h3, hh2⟩ := bind_some_inv hh
    obtain ⟨p4, h4, h1⟩ := bind_some_inv hh2
    exact appends_trans (appends_ite_wrS p _ _)
      (appends_trans (appends_wr _ _)
        (appends_trans (appends_wr _ _)
          (appends_trans (appends_wr _ _)
            (appends_trans (printGenericArg_appends selfTy _ p2 h2)
              (appends_trans (printGenericArgList_appends restArgs p2 false pb h3)
                (appends_trans (printBindings_appends bindings pb.1 pb.2 p4 h4)
                  (appends_trans (appends_wr p4 _)
                    (printSegments_appends tl _ (i + 1) r h1))))))))
  | .cons name (.some (.mk false args bindings)) tl, p, i, r, h => by
    simp only [printSegments, reduceIte, Option.pure_def, Option.some_bind] at h
    obtain ⟨pb, h3, hh3⟩ := bind_some_inv h
    obtain ⟨p4, h4, h1⟩ := bind_some_inv hh3
    exact appends_trans (appends_ite_wrS p _ _)
      (appends_trans (appends_wr _ _)
        (appends_trans (appends_wr _ _)
          (appends_trans (printGenericArgList_appends args _ true pb h3)
            (appends_trans (printBindings_appends bindings pb.1 pb.2 p4 h4)
              (appends_trans (appends_wr p4 _)
                (printSegments_appends tl _ (i + 1) r h1))))))

termination_by l _ _ _ _ => sizeOf l

/-- The generic-argument loop only appends (to the printer component). -/
theorem printGenericArgList_appends :
    ∀ (l : GenericArgList) (p : Printer) (first : Bool) (rb : Printer × Bool),
      printGenericArgList p first l = some rb → Appends p rb.1
  | .nil, p, first, rb, h => by
    simp only [printGenericArgList, Option.some.injEq] at h
    subst h
    exact appends_refl p
  | .cons hd tl, p, first, rb, h => by
    simp only [printGenericArgList] at h
    obtain ⟨p1, h1, h2⟩ := bind_some_inv h
    exact appends_trans (appends_ite_wrS p _ _)
      (appends_trans (printGenericArg_appends hd _ p1 h1)
        (printGenericArgList_appends tl p1 false rb h2))

termination_by l _ _ _ _ => sizeOf l

/-- The binding loop only appends. -/
theorem printBindings_appends :
    ∀ (l : BindingList) (p : Printer) (first : Bool) (r : Printer),
      printBindings p first l = some r → Appends p r
  | .nil, p, first, r, h => by
    rw [printBindings_nil] at h
    obtain rfl := Option.some_injective _ h
    exact appends_refl p
  | .cons name .nil .none tl, p, first, r, h => by
    rw [printBindings_cons_nil_none] at h
    exact appends_trans (appends_ite_wrS p _ _)
      (appends_trans (appends_wr _ _) (printBindings_appends tl _ false r h))
  | .cons name .nil (.some t) tl, p, first, r, h => by
    rw [printBindings_cons_nil_some] at h
    obtain ⟨p1, h1, h2⟩ := bind_some_inv h
    exact appends_trans (appends_ite_wrS p _ _)
      (appends_trans (appends_wr _ _)
        (appends_trans (appends_wr _ _)
          (appends_trans (printTypeRef_appends t _ p1 h1)
            (printBindings_appends tl p1 false r h2))))
  | .cons name (.cons b bs) .none tl, p, first, r, h => by
    rw [printBindings_cons_cons_none] at h
    obtain ⟨p1, h1, h2⟩ := bind_some_inv h
    exact appends_trans (appends_ite_wrS p _ _)
      (appends_trans (appends_wr _ _)
        (appends_trans (appends_wr _ _)
          (appends_trans (printTypeBounds_appends (.cons b bs) _ 0 p1 h1)
            (printBindings_appends tl p1 false r h2))))
  | .cons name (.cons b bs) (.some t) tl, p, first, r, h => by
    rw [printBindings_cons_cons_some] at h
    obtain ⟨p1, h1, hh⟩ := bind_some_inv h
    obtain ⟨p2, h2, h3⟩ := bind_some_inv hh
    exact appends_trans (appends_ite_wrS p _ _)
      (appends_trans (appends_wr _ _)
        (appends_trans (appends_wr _ _)
          (appends_trans (printTypeBounds_appends (.cons b bs) _ 0 p1 h1)
            (appends_trans (appends_wr _ _)
              (appends_trans (printTypeRef_appends t _ p2 h2)
                (printBindings_appends tl p2 false r h3))))))
termination_by l _ _ _ _ => sizeOf l

/-- `print_generic_arg` only appends. -/
theorem printGenericArg_appends :
    ∀ (a : GenericArg) (p r : Printer), printGenericArg p a = some r → Appends p r
  | .Ty ty, p, r, h => by
    simp only [printGenericArg] at h
    exact printTypeRef_appends ty p r h
  | .Const c, p, r, h => by
    simp only [printGenericArg, Option.some.injEq] at h
    subst h
    exact appends_wr p _
  | .Lifetime lt, p, r, h => by
    simp only [printGenericArg, Option.some.injEq] at h
    subst h
    exact appends_wr p _
termination_by a _ _ _ => sizeOf a
end


/-- The `split_inclusive` segments reassemble to the original string. -/
theorem splitInclusive_join : ∀ (s : List Char), (splitInclusive s).flatten = s := by
  intro s
  induction s with
  | nil => rfl
  | cons c cs ih =>
    by_cases hc : c = '\n'
    · simp [splitInclusive, hc, ih]
    · simp only [splitInclusive, if_neg hc]
      cases h : splitInclusive cs with
      | nil =>
        rw [h] at ih
        simp at ih
        simp [← ih]
      | cons l ls =>
        rw [h] at ih
        simp only [List.flatten_cons] at ih ⊢
        rw [List.cons_append, ih]

/-- At indentation level 0 under the indentation invariant, a segment
push appends exactly the segment. -/
theorem pushSeg_zero (p : Printer) (line : List Char) (h0 : p.indentLevel = 0)
    (hI : NInv p) :
    (pushSeg p line).buf = line.reverse ++ p.buf ∧ (pushSeg p line).indentLevel = 0 := by
  unfold pushSeg
  by_cases hn : p.needsIndent
  · rcases hI hn with hb | hb
    · simp [hn, hb, indentChars, h0]
    · rcases he : p.buf with _ | ⟨c, rest⟩
      · simp [hn, he, indentChars, h0]
      · rw [he] at hb
        simp only [List.head?_cons, Option.some.injEq] at hb
        subst hb
        simp [hn, he, indentChars, h0]
  · simp [hn, h0]

/-- At indentation level 0 under the indentation invariant, a write
appends exactly the written text. -/
theorem wr_zero (s : List Char) (p : Printer) (h0 : p.indentLevel = 0) (hI : NInv p) :
    (wr p s).buf = s.reverse ++ p.buf ∧ (wr p s).indentLevel = 0 ∧ NInv (wr p s) := by
  have main : ∀ (segs : List (List Char)) (p : Printer), p.indentLevel = 0 → NInv p →
      (segs.foldl pushSeg p).buf = segs.flatten.reverse ++ p.buf ∧
      (segs.foldl pushSeg p).indentLevel = 0 ∧ NInv (segs.foldl pushSeg p) := by
    intro segs
    induction segs with
    | nil => intro p h0 hI; exact ⟨by simp, h0, hI⟩
    | cons l ls ih =>
      intro p h0 hI
      obtain ⟨hb, hl⟩ := pushSeg_zero p l h0 hI
      obtain ⟨ihb, ihl, ihn⟩ := ih (pushSeg p l) hl (pushSeg_NInv p l)
      refine ⟨?_, ihl, ihn⟩
      rw [List.foldl_cons, ihb, hb]
      simp [List.reverse_append]
  have := main (splitInclusive s) p h0 hI
  rwa [splitInclusive_join] at this

/-- `blank` after a buffer ending `…c\n` (`c ≠ '\n'`) pushes one more
newline. -/
theorem blank_buf_cons (q : Printer) (c : Char) (X : List Char) (hc : c ≠ '\n')
    (h : q.buf = '\n' :: c :: X) :
    blank q = { q with buf := '\n' :: '\n' :: c :: X } := by
  obtain ⟨b, l, n⟩ := q
  simp only at h
  subst h
  unfold blank
  split
  · next heq => exact absurd heq (by simp)
  · next heq =>
    simp only [List.cons.injEq] at heq
    exact absurd heq.2 (by simp)
  · next heq =>
    simp only [List.cons.injEq] at heq
    exact absurd heq.2.1 hc
  · rfl
  · next _ _ _ _ _ n3 heq =>
    simp only [List.cons.injEq] at heq
    exact (n3 c X heq.1.symm heq.2.symm).elim


/-- `print_visibility` is a single write of `visText`. -/
theorem printVisibility_eq_wr (p : Printer) (vis : RawVisibility) :
    printVisibility p vis = wr p (visText vis) := by cases vis <;> rfl

/-- The tail of the `Const`/`Static` arm: whatever the state reached after
the type, the rendering ends `… = _;` followed by the blank separator. -/
theorem const_tail_suffix (q : Printer) :
    ∃ rest, (blank (wrLn q (toL " = _;"))).buf =
      '\n' :: '\n' :: ';' :: '_' :: ' ' :: '=' :: ' ' :: rest := by
  have hwr : wrLn q (toL " = _;") = pushSeg q (toL " = _;\n") := rfl
  obtain ⟨ins, hbuf⟩ := pushSeg_buf q (toL " = _;\n")
  have hbuf' : (pushSeg q (toL " = _;\n")).buf =
      '\n' :: ';' :: ('_' :: ' ' :: '=' :: ' ' :: (ins ++ q.buf)) := by
    rw [hbuf]; rfl
  have hb := blank_buf_cons (pushSeg q (toL " = _;\n")) ';'
    ('_' :: ' ' :: '=' :: ' ' :: (ins ++ q.buf)) (by decide) hbuf'
  rw [hwr, hb]
  exact ⟨ins ++ q.buf, rfl⟩

/-- The tail of the `Const`/`Static` arm at indentation level 0 under the
indentation invariant: the rendering ends exactly `… = _;` and a blank
line. -/
theorem const_tail_exact (q : Printer) (h0 : q.indentLevel = 0) (hI : NInv q) :
    (blank (wrLn q (toL " = _;"))).buf =
      '\n' :: '\n' :: ';' :: '_' :: ' ' :: '=' :: ' ' :: q.buf := by
  have hwr : wrLn q (toL " = _;") = wr q (toL " = _;\n") := rfl
  obtain ⟨hbuf, _, _⟩ := wr_zero (toL " = _;\n") q h0 hI
  have hbuf' : (wr q (toL " = _;\n")).buf =
      '\n' :: ';' :: ('_' :: ' ' :: '=' :: ' ' :: q.buf) := by
    rw [hbuf]; rfl
  have hb := blank_buf_cons (wr q (toL " = _;\n")) ';'
    ('_' :: ' ' :: '=' :: ' ' :: q.buf) (by decide) hbuf'
  rw [hwr, hb]

/-- From any printer state, a successfully printed const item ends with
the erased body `= _;` and the blank separator. -/
theorem printConst_tail_any (p : Printer) (attrs : RawAttrs) (name : Option Str)
    (vis : RawVisibility) (ty : TypeRef) (p' : Printer)
    (h : printModItem p (.Const attrs name vis ty) = some p') :
    ∃ rest, p'.buf = '\n' :: '\n' :: ';' :: '_' :: ' ' :: '=' :: ' ' :: rest := by
  rw [printModItem.eq_def] at h
  simp only [Option.pure_def, Option.some_bind] at h
  obtain ⟨p6, _, hsome⟩ := bind_some_inv h
  obtain rfl := Option.some_injective _ hsome
  exact const_tail_suffix p6

/-- From any printer state, a successfully printed static item ends with
the erased body `= _;` and the blank separator. -/
theorem printStatic_tail_any (p : Printer) (attrs : RawAttrs) (name : Str)
    (vis : RawVisibility) (mutable : Bool) (ty : TypeRef) (p' : Printer)
    (h : printModItem p (.Static attrs name vis mutable ty) = some p') :
    ∃ rest, p'.buf = '\n' :: '\n' :: ';' :: '_' :: ' ' :: '=' :: ' ' :: rest := by
  rw [printModItem.eq_def] at h
  simp only [Option.pure_def, Option.some_bind] at h
  obtain ⟨p6, _, hsome⟩ := bind_some_inv h
  have hc : blank (wln (wrS p6 " = _;")) = blank (wrLn p6 (toL " = _;")) := rfl
  rw [hc] at hsome
  obtain rfl := Option.some_injective _ hsome
  exact const_tail_suffix p6

/-- An attribute-free const item printed from the fresh printer renders
exactly `<vis>const <name-or-_>: <type> = _;` and a blank line: the body
is the placeholder `_`. -/
theorem printConst_fresh (name : Option Str) (vis : RawVisibility) (ty : TypeRef)
    (p' : Printer) (h : printModItem freshPrinter (.Const [] name vis ty) = some p') :
    ∃ tyOut, p'.buf.reverse =
      visText vis ++ toL "const " ++ nameOrUnderscore name ++ toL ": " ++ tyOut ++
        toL " = _;\n\n" := by
  have hNf : NInv freshPrinter := fun _ => Or.inl rfl
  rw [printModItem.eq_def] at h
  cases name with
  | none =>
    simp only [Option.pure_def, Option.some_bind] at h
    obtain ⟨p6, h6, hsome⟩ := bind_some_inv h
    obtain rfl := Option.some_injective _ hsome
    have e1 : printAttrs freshPrinter [] false = freshPrinter := rfl
    rw [e1, printVisibility_eq_wr] at h6
    simp only [wrS] at h6
    obtain ⟨b1, l1, n1⟩ := wr_zero (visText vis) freshPrinter rfl hNf
    obtain ⟨b2, l2, n2⟩ := wr_zero (toL "const ") _ l1 n1
    obtain ⟨b3, l3, n3⟩ := wr_zero (toL "_") _ l2 n2
    obtain ⟨b4, l4, n4⟩ := wr_zero (toL ": ") _ l3 n3
    obtain ⟨⟨out, hbuf6⟩, hl6, hNi6⟩ := printTypeRef_appends ty _ p6 h6
    have hfin := const_tail_exact p6 (by rw [hl6, l4]) (hNi6 n4)
    refine ⟨out.reverse, ?_⟩
    rw [hfin, hbuf6, b4, b3, b2, b1]
    simp [freshPrinter, nameOrUnderscore, toL, List.append_assoc]
  | some n =>
    simp only [Option.pure_def, Option.some_bind] at h
    obtain ⟨p6, h6, hsome⟩ := bind_some_inv h
    obtain rfl := Option.some_injective _ hsome
    have e1 : printAttrs freshPrinter [] false = freshPrinter := rfl
    rw [e1, printVisibility_eq_wr] at h6
    simp only [wrS] at h6
    obtain ⟨b1, l1, n1⟩ := wr_zero (visText vis) freshPrinter rfl hNf
    obtain ⟨b2, l2, n2⟩ := wr_zero (toL "const ") _ l1 n1
    obtain ⟨b3, l3, n3⟩ := wr_zero n _ l2 n2
    obtain ⟨b4, l4, n4⟩ := wr_zero (toL ": ") _ l3 n3
    obtain ⟨⟨out, hbuf6⟩, hl6, hNi6⟩ := printTypeRef_appends ty _ p6 h6
    have hfin := const_tail_exact p6 (by rw [hl6, l4]) (hNi6 n4)
    refine ⟨out.reverse, ?_⟩
    rw [hfin, hbuf6, b4, b3, b2, b1]
    simp [freshPrinter, nameOrUnderscore, toL, List.append_assoc]

/-- An attribute-free static item printed from the fresh printer renders
exactly `<vis>static [mut ]<name>: <type> = _;` and a blank line: the body
is the placeholder `_`. -/
theorem printStatic_fresh (name : Str) (vis : RawVisibility) (mutable : Bool)
    (ty : TypeRef) (p' : Printer)
    (h : printModItem freshPrinter (.Static [] name vis mutable ty) = some p') :
    ∃ tyOut, p'.buf.reverse =
      visText vis ++ toL "static " ++ (if mutable then toL "mut " else []) ++ name ++
        toL ": " ++ tyOut ++ toL " = _;\n\n" := by
  have hNf : NInv freshPrinter := fun _ => Or.inl rfl
  rw [printModItem.eq_def] at h
  cases mutable with
  | false =>
    simp only [Option.pure_def, Option.some_bind, if_neg (by decide : ¬False), Bool.false_eq_true,
      if_false] at h
    obtain ⟨p6, h6, hsome⟩ := bind_some_inv h
    have hc : blank (wln (wrS p6 " = _;")) = blank (wrLn p6 (toL " = _;")) := rfl
    rw [hc] at hsome
    obtain rfl := Option.some_injective _ hsome
    have e1 : printAttrs freshPrinter [] false = freshPrinter := rfl
    rw [e1, printVisibility_eq_wr] at h6
    simp only [wrS] at h6
    obtain ⟨b1, l1, n1⟩ := wr_zero (visText vis) freshPrinter rfl hNf
    obtain ⟨b2, l2, n2⟩ := wr_zero (toL "static ") _ l1 n1
    obtain ⟨b3, l3, n3⟩ := wr_zero (name ++ toL ": ") _ l2 n2
    obtain ⟨⟨out, hbuf6⟩, hl6, hNi6⟩ := printTypeRef_appends ty _ p6 h6
    have hfin := const_tail_exact p6 (by rw [hl6, l3]) (hNi6 n3)
    refine ⟨out.reverse, ?_⟩
    rw [hfin, hbuf6, b3, b2, b1]
    simp [freshPrinter, toL, List.append_assoc]
  | true =>
    simp only [Option.pure_def, Option.some_bind, if_pos trivial, if_true] at h
    obtain ⟨p6, h6, hsome⟩ := bind_some_inv h
    have hc : blank (wln (wrS p6 " = _;")) = blank (wrLn p6 (toL " = _;")) := rfl
    rw [hc] at hsome
    obtain rfl := Option.some_injective _ hsome
    have e1 : printAttrs freshPrinter [] false = freshPrinter := rfl
    rw [e1, printVisibility_eq_wr] at h6
    simp only [wrS] at h6
    obtain ⟨b1, l1, n1⟩ := wr_zero (visText vis) freshPrinter rfl hNf
    obtain ⟨b2, l2, n2⟩ := wr_zero (toL "static ") _ l1 n1
    obtain ⟨b2', l2', n2'⟩ := wr_zero (toL "mut ") _ l2 n2
    obtain ⟨b3, l3, n3⟩ := wr_zero (name ++ toL ": ") _ l2' n2'
    obtain ⟨⟨out, hbuf6⟩, hl6, hNi6⟩ := printTypeRef_appends ty _ p6 h6
    have hfin := const_tail_exact p6 (by rw [hl6, l3]) (hNi6 n3)
    refine ⟨out.reverse, ?_⟩
    rw [hfin, hbuf6, b3, b2', b2, b1]
    simp [freshPrinter, toL, List.append_assoc]

/-- C7: the debug rendering erases const and static bodies to `_`.  Every
successfully printed const or static item, from any printer state, ends
with the erased body text ` = _;` and the blank separator; and from the
fresh printer the full rendering is exactly
`<vis>const <name-or-_>: <type> = _;` resp.
`<vis>static [mut ]<name>: <type> = _;` followed by a blank line, so no
initializer expression ever appears. -/
theorem const_static_body_erased :
    (∀ (p : Printer) (attrs : RawAttrs) (name : Option Str) (vis : RawVisibility)
        (ty : TypeRef) (p' : Printer),
        printModItem p (.Const attrs name vis ty) = some p' →
        ∃ rest, p'.buf = '\n' :: '\n' :: ';' :: '_' :: ' ' :: '=' :: ' ' :: rest) ∧
    (∀ (p : Printer) (attrs : RawAttrs) (name : Str) (vis : RawVisibility)
        (mutable : Bool) (ty : TypeRef) (p' : Printer),
        printModItem p (.Static attrs name vis mutable ty) = some p' →
        ∃ rest, p'.buf = '\n' :: '\n' :: ';' :: '_' :: ' ' :: '=' :: ' ' :: rest) ∧
    (∀ (name : Option Str) (vis : RawVisibility) (ty : TypeRef) (p' : Printer),
        printModItem freshPrinter (.Const [] name vis ty) = some p' →
        ∃ tyOut, p'.buf.reverse =
          visText vis ++ toL "const " ++ nameOrUnderscore name ++ toL ": " ++ tyOut ++
            toL " = _;\n\n") ∧
    (∀ (name : Str) (vis : RawVisibility) (mutable : Bool) (ty : TypeRef) (p' : Printer),
        printModItem freshPrinter (.Static [] name vis mutable ty) = some p' →
        ∃ tyOut, p'.buf.reverse =
          visText vis ++ toL "static " ++ (if mutable then toL "mut " else []) ++ name ++
            toL ": " ++ tyOut ++ toL " = _;\n\n") :=
  ⟨printConst_tail_any, printStatic_tail_any, printConst_fresh, printStatic_fresh⟩

/-- Witness for C7 at concrete items: `pub const _: _ = _;` and
`pub static mut X: _ = _;`. -/
theorem const_static_body_erased_witness :
    (∃ tyOut, (⟨(toL "pub const _: _ = _;\n\n").reverse, 0, true⟩ : Printer).buf.reverse =
      visText .Public ++ toL "const " ++ nameOrUnderscore Option.none ++ toL ": " ++ tyOut ++
        toL " = _;\n\n") ∧
    (∃ tyOut, (⟨(toL "pub static mut X: _ = _;\n\n").reverse, 0, true⟩ : Printer).buf.reverse =
      visText .Public ++ toL "static " ++ (if true then toL "mut " else []) ++ toL "X" ++
        toL ": " ++ tyOut ++ toL " = _;\n\n") := by
  have hc : printModItem freshPrinter sampleConst =
      some ⟨(toL "pub const _: _ = _;\n\n").reverse, 0, true⟩ := by
    rw [printModItem.eq_def]; rfl
  have hs : printModItem freshPrinter sampleStatic =
      some ⟨(toL "pub static mut X: _ = _;\n\n").reverse, 0, true⟩ := by
    rw [printModItem.eq_def]; rfl
  exact ⟨const_static_body_erased.2.2.1 Option.none .Public .Placeholder _ hc,
    const_static_body_erased.2.2.2 (toL "X") .Public true .Placeholder _ hs⟩


/-- A push onto a printer with no pending indentation appends exactly the
segment. -/
theorem pushSeg_not_needsIndent (p : Printer) (line : List Char)
    (h : p.needsIndent = false) :
    pushSeg p line =
      ⟨line.reverse ++ p.buf, p.indentLevel, decide (line.getLast? = some '\n')⟩ := by
  simp [pushSeg, h]

/-- A record field list rendering ends with the closing brace, with no
indentation pending. -/
theorem printFields_record_end (p : Printer) (fs : List Field) (p' : Printer)
    (h : printFields p (.Record fs) = some p') :
    (∃ q, p'.buf = rbrace :: q) ∧ p'.needsIndent = false := by
  obtain ⟨r, hr, hpure⟩ := bind_some_inv h
  simp only [Option.pure_def] at hpure
  obtain rfl := Option.some_injective _ hpure
  constructor
  · have e : wrS (indentOut r) "\x7d" = pushSeg (indentOut r) ['\x7d'] := rfl
    obtain ⟨ins, hbuf⟩ := pushSeg_buf (indentOut r) ['\x7d']
    exact ⟨ins ++ (indentOut r).buf, by rw [e, hbuf]; rfl⟩
  · rfl

/-- A tuple field list rendering ends with the closing parenthesis, with
no indentation pending. -/
theorem printFields_tuple_end (p : Printer) (fs : List Field) (p' : Printer)
    (h : printFields p (.Tuple fs) = some p') :
    (∃ q, p'.buf = ')' :: q) ∧ p'.needsIndent = false := by
  obtain ⟨r, hr, hpure⟩ := bind_some_inv h
  simp only [Option.pure_def] at hpure
  obtain rfl := Option.some_injective _ hpure
  constructor
  · have e : wrS (indentOut r) ")" = pushSeg (indentOut r) [')'] := rfl
    obtain ⟨ins, hbuf⟩ := pushSeg_buf (indentOut r) [')']
    exact ⟨ins ++ (indentOut r).buf, by rw [e, hbuf]; rfl⟩
  · rfl

/-- A buffer that ends with the closing brace and has no indentation
pending ends, after the item's trailing newline and blank separator, with
`\x7d` and a blank line. -/
theorem recordEnd_blank_wln (b : Printer) (q : List Char)
    (hq : b.buf = rbrace :: q) (hni : b.needsIndent = false) :
    (blank (wln b)).buf = '\n' :: '\n' :: rbrace :: q := by
  have hwln : wln b = pushSeg b ['\n'] := rfl
  have hbufw : (wln b).buf = '\n' :: rbrace :: q := by
    rw [hwln, pushSeg_not_needsIndent b ['\n'] hni]
    simp [hq]
  have hb3 := blank_buf_cons (wln b) rbrace q (by decide) hbufw
  rw [hb3]

/-- The `;`-and-blank-line tail written after tuple- and unit-shaped
structs and unions. -/
theorem semi_tail_suffix (q : Printer) :
    ∃ rest, (blank (wrLn q (toL ";"))).buf = '\n' :: '\n' :: ';' :: rest := by
  have hwr : wrLn q (toL ";") = pushSeg q (toL ";\n") := rfl
  obtain ⟨ins, hbuf⟩ := pushSeg_buf q (toL ";\n")
  have hbuf' : (pushSeg q (toL ";\n")).buf = '\n' :: ';' :: (ins ++ q.buf) := by
    rw [hbuf]; rfl
  have hb3 := blank_buf_cons (pushSeg q (toL ";\n")) ';' (ins ++ q.buf) (by decide) hbuf'
  exact ⟨ins ++ q.buf, by rw [hwr, hb3]⟩

/-- Every successfully printed struct item ends as its field shape
dictates: `\x7d` for record shape, `;` for tuple and unit shapes. -/
theorem printStruct_shapeEnd (p : Printer) (attrs : RawAttrs) (vis : RawVisibility)
    (name : Str) (fields : Fields) (gps : GenericParams) (p' : Printer)
    (h : printModItem p (.Struct attrs vis name fields gps) = some p') :
    shapeEnd fields p' := by
  rw [printModItem.eq_def] at h
  simp only [Option.pure_def, Option.some_bind] at h
  obtain ⟨a, ha, h2⟩ := bind_some_inv h
  obtain ⟨b, hb, hsome⟩ := bind_some_inv h2
  obtain rfl := Option.some_injective _ hsome
  cases fields with
  | Record fs =>
    obtain ⟨w, hw, hb2⟩ := bind_some_inv hb
    obtain ⟨w1, w2⟩ := w
    obtain ⟨⟨q, hq⟩, hni⟩ := printFields_record_end (if w2 then wln w1 else w1) fs b hb2
    simp only [shapeEnd]
    exact ⟨q, recordEnd_blank_wln b q hq hni⟩
  | Tuple fs =>
    simp only [shapeEnd]
    exact semi_tail_suffix b
  | Unit =>
    simp only [shapeEnd]
    exact semi_tail_suffix b

/-- Every successfully printed union item ends as its field shape
dictates: `\x7d` for record shape, `;` for tuple and unit shapes. -/
theorem printUnion_shapeEnd (p : Printer) (attrs : RawAttrs) (name : Str)
    (vis : RawVisibility) (fields : Fields) (gps : GenericParams) (p' : Printer)
    (h : printModItem p (.Union attrs name vis fields gps) = some p') :
    shapeEnd fields p' := by
  rw [printModItem.eq_def] at h
  simp only [Option.pure_def, Option.some_bind] at h
  obtain ⟨a, ha, h2⟩ := bind_some_inv h
  obtain ⟨b, hb, hsome⟩ := bind_some_inv h2
  obtain rfl := Option.some_injective _ hsome
  cases fields with
  | Record fs =>
    obtain ⟨w, hw, hb2⟩ := bind_some_inv hb
    obtain ⟨w1, w2⟩ := w
    obtain ⟨⟨q, hq⟩, hni⟩ := printFields_record_end (if w2 then wln w1 else w1) fs b hb2
    simp only [shapeEnd]
    exact ⟨q, recordEnd_blank_wln b q hq hni⟩
  | Tuple fs =>
    simp only [shapeEnd]
    exact semi_tail_suffix b
  | Unit =>
    simp only [shapeEnd]
    exact semi_tail_suffix b

/-- C8: the printer dispatches on the three distinct field shapes.
`Fields::Record` renders brace-delimited (the rendering ends with the
closing brace), `Fields::Tuple` renders parenthesized (it ends with the
closing parenthesis), `Fields::Unit` renders nothing (the printer state is
returned unchanged); consequently every record-shaped struct or union item
rendering ends in `\x7d` and every tuple- or unit-shaped one ends in `;`
(each before the final blank line). -/
theorem fields_three_shapes :
    (∀ (p : Printer) (fs : List Field) (p' : Printer),
        printFields p (.Record fs) = some p' → ∃ q, p'.buf = rbrace :: q) ∧
    (∀ (p : Printer) (fs : List Field) (p' : Printer),
        printFields p (.Tuple fs) = some p' → ∃ q, p'.buf = ')' :: q) ∧
    (∀ p : Printer, printFields p .Unit = some p) ∧
    (∀ (p : Printer) (attrs : RawAttrs) (vis : RawVisibility) (name : Str)
        (fields : Fields) (gps : GenericParams) (p' : Printer),
        printModItem p (.Struct attrs vis name fields gps) = some p' →
        shapeEnd fields p') ∧
    (∀ (p : Printer) (attrs : RawAttrs) (name : Str) (vis : RawVisibility)
        (fields : Fields) (gps : GenericParams) (p' : Printer),
        printModItem p (.Union attrs name vis fields gps) = some p' →
        shapeEnd fields p') :=
  ⟨fun p fs p' h => (printFields_record_end p fs p' h).1,
   fun p fs p' h => (printFields_tuple_end p fs p' h).1,
   fun _ => rfl,
   printStruct_shapeEnd,
   printUnion_shapeEnd⟩

/-- Witness for C8 at concrete inputs: an empty record field list, an
empty tuple field list, and the three sample structs. -/
theorem fields_three_shapes_witness :
    (∃ q, (Printer.mk ['\x7d', '\n', '\x7b'] 0 false).buf = rbrace :: q) ∧
    (∃ q, (Printer.mk [')', '\n', '('] 0 false).buf = ')' :: q) ∧
    printFields freshPrinter .Unit = some freshPrinter ∧
    shapeEnd (.Record [⟨.Public, toL "x", .Never, []⟩])
      ⟨(toL "pub struct S \x7b\n    pub x: !,\n\x7d\n\n").reverse, 0, true⟩ ∧
    shapeEnd (.Tuple [⟨.Public, toL "0", .Never, []⟩])
      ⟨(toL "pub struct T(\n    pub 0: !,\n);\n\n").reverse, 0, true⟩ ∧
    shapeEnd .Unit ⟨(toL "pub struct U;\n\n").reverse, 0, true⟩ := by
  have h1 : printFields freshPrinter (.Record []) =
      some ⟨['\x7d', '\n', '\x7b'], 0, false⟩ := rfl
  have h2 : printFields freshPrinter (.Tuple []) =
      some ⟨[')', '\n', '('], 0, false⟩ := rfl
  have h3 : printModItem freshPrinter sampleRecordStruct =
      some ⟨(toL "pub struct S \x7b\n    pub x: !,\n\x7d\n\n").reverse, 0, true⟩ := by
    rw [printModItem.eq_def]; rfl
  have h4 : printModItem freshPrinter sampleTupleStruct =
      some ⟨(toL "pub struct T(\n    pub 0: !,\n);\n\n").reverse, 0, true⟩ := by
    rw [printModItem.eq_def]; rfl
  have h5 : printModItem freshPrinter sampleUnitStruct =
      some ⟨(toL "pub struct U;\n\n").reverse, 0, true⟩ := by
    rw [printModItem.eq_def]; rfl
  refine ⟨fields_three_shapes.1 freshPrinter [] _ h1,
    fields_three_shapes.2.1 freshPrinter [] _ h2,
    fields_three_shapes.2.2.1 freshPrinter,
    fields_three_shapes.2.2.2.1 freshPrinter [] .Public (toL "S") _ gp0 _ h3,
    fields_three_shapes.2.2.2.1 freshPrinter [] .Public (toL "T") _ gp0 _ h4,
    fields_three_shapes.2.2.2.1 freshPrinter [] .Public (toL "U") _ gp0 _ h5⟩


set_option maxHeartbeats 1000000 in
mutual
/-- Totality of `print_type_ref` under the panic-freedom precondition
`tyOk true`: no `expect`/`unwrap` site is reached. -/
theorem printTypeRef_total :
    ∀ (t : TypeRef) (p : Printer), tyOk true t = true → ∃ r, printTypeRef p t = some r
  | .Never, p, _ => ⟨_, rfl⟩
  | .Placeholder, p, _ => ⟨_, rfl⟩
  | .Macro, p, _ => ⟨_, rfl⟩
  | .Error, p, _ => ⟨_, rfl⟩
  | .Tuple fields, p, h => by
    simp only [printTypeRef]
    obtain ⟨q, hq⟩ := printTypeRefs_total fields (wrS p "(") 0 h
    rw [hq]
    exact ⟨_, rfl⟩
  | .Path path, p, h => by
    simp only [printTypeRef]
    exact printPath_total path p h
  | .RawPtr pointee mtbl, p, h => by
    simp only [printTypeRef]
    exact printTypeRef_total pointee _ h
  | .Reference pointee lt mtbl, p, h => by
    simp only [printTypeRef]
    exact printTypeRef_total pointee _ h
  | .Array elem len, p, h => by
    simp only [printTypeRef]
    obtain ⟨q, hq⟩ := printTypeRef_total elem (wrS p "[") h
    rw [hq]
    exact ⟨_, rfl⟩
  | .Slice elem, p, h => by
    simp only [printTypeRef]
    obtain ⟨q, hq⟩ := printTypeRef_total elem (wrS p "[") h
    rw [hq]
    exact ⟨_, rfl⟩
  | .Fn .nil varargs, p, h => Bool.noConfusion (show false = true from h)
  | .Fn (.cons nm ty tl) varargs, p, h => by
    have h' : fnListOk true (.cons nm ty tl) = true := h
    simp only [printTypeRef]
    exact printFnAux_total (.cons nm ty tl) (wrS p "fn(") 0 varargs h'
      (fun hx => FnParamList.noConfusion hx)
  | .ImplTrait bounds, p, h => by
    simp only [printTypeRef]
    exact printTypeBounds_total bounds (wrS p "impl ") 0 h
  | .DynTrait bounds, p, h => by
    simp only [printTypeRef]
    exact printTypeBounds_total bounds (wrS p "dyn ") 0 h

termination_by t _ _ => sizeOf t

/-- Totality of the `Fn` argument/return loop on nonempty well-formed
lists. -/
theorem printFnAux_total :
    ∀ (l : FnParamList) (p : Printer) (i : Nat) (varargs : Bool),
      fnListOk true l = true → l ≠ .nil → ∃ r, printFnAux p i varargs l = some r
  | .nil, _, _, _, _, hne => absurd rfl hne
  | .cons nm ty .nil, p, i, varargs, h, _ => by
    simp only [fnListOk, Bool.and_eq_true] at h
    simp only [printFnAux]
    exact printTypeRef_total ty _ h.1
  | .cons nm ty (.cons nm2 ty2 tl), p, i, varargs, h, _ => by
    simp only [fnListOk, Bool.and_eq_true] at h
    simp only [printFnAux]
    obtain ⟨q, hq⟩ := printTypeRef_total ty (if i ≠ 0 then wrS p ", " else p) h.1
    rw [hq]
    simp only [Option.bind_eq_bind, Option.some_bind]
    exact printFnAux_total (.cons nm2 ty2 tl) q (i + 1) varargs
      (by simp only [fnListOk, Bool.and_eq_true]; exact h.2)
      (fun hx => FnParamList.noConfusion hx)

termination_by l _ _ _ _ _ => sizeOf l

/-- Totality of the tuple-field loop on well-formed lists. -/
theorem printTypeRefs_total :
    ∀ (l : TypeRefList) (p : Printer) (i : Nat),
      tyOkList true l = true → ∃ r, printTypeRefs p i l = some r
  | .nil, p, _, _ => ⟨p, rfl⟩
  | .cons hd tl, p, i, h => by
    simp only [tyOkList, Bool.and_eq_true] at h
    simp only [printTypeRefs]
    obtain ⟨q, hq⟩ := printTypeRef_total hd (if i ≠ 0 then wrS p ", " else p) h.1
    rw [hq]
    simp only [Option.bind_eq_bind, Option.some_bind]
    exact printTypeRefs_total tl q (i + 1) h.2

termination_by l _ _ _ => sizeOf l

/-- Totality of the bound loop on well-formed lists. -/
theorem printTypeBounds_total :
    ∀ (l : TypeBoundList) (p : Printer) (i : Nat),
      boundsOk true l = true → ∃ r, printTypeBounds p i l = some r
  | .nil, p, _, _ => ⟨p, rfl⟩
  | .cons (.Path path .None) tl, p, i, h => by
    simp only [boundsOk, boundOk, Bool.and_eq_true] at h
    simp only [printTypeBounds]
    obtain ⟨q, hq⟩ := printPath_total path (if i ≠ 0 then wrS p " + " else p) h.1
    rw [hq]
    simp only [Option.bind_eq_bind, Option.some_bind]
    exact printTypeBounds_total tl q (i + 1) h.2
  | .cons (.Path path .Maybe) tl, p, i, h => by
    simp only [boundsOk, boundOk, Bool.and_eq_true] at h
    simp only [printTypeBounds]
    obtain ⟨q, hq⟩ := printPath_total path (wrS (if i ≠ 0 then wrS p " + " else p) "?") h.1
    rw [hq]
    simp only [Option.bind_eq_bind, Option.some_bind]
    exact printTypeBounds_total tl q (i + 1) h.2
  | .cons (.ForLifetime lifetimes path) tl, p, i, h => by
    simp only [boundsOk, boundOk, Bool.and_eq_true] at h
    simp only [printTypeBounds]
    obtain ⟨q, hq⟩ := printPath_total path
      (wr (if i ≠ 0 then wrS p " + " else p)
        (toL "for<" ++ joinSep (toL ", ") lifetimes ++ toL "> ")) h.1
    rw [hq]
    simp only [Option.bind_eq_bind, Option.some_bind]
    exact printTypeBounds_total tl q (i + 1) h.2
  | .cons (.Lifetime lt) tl, p, i, h => by
    have htl : boundsOk true tl = true := h
    simp only [printTypeBounds, Option.bind_eq_bind, Option.some_bind]
    exact printTypeBounds_total tl _ (i + 1) htl
  | .cons .Error tl, p, i, h => by
    have htl : boundsOk true tl = true := h
    simp only [printTypeBounds, Option.bind_eq_bind, Option.some_bind]
    exact printTypeBounds_total tl _ (i + 1) htl

termination_by l _ _ _ => sizeOf l

/-- Totality of `print_path` on well-formed paths. -/
theorem printPath_total :
    ∀ (pa : Path) (p : Printer), pathOk true pa = true → ∃ r, printPath p pa = some r
  | .mk (.some anchor) kind segments, p, h => by
    simp only [pathOk, optTyOk, Bool.and_eq_true] at h
    simp only [printPath, Option.pure_def]
    obtain ⟨q, hq⟩ := printTypeRef_total anchor (wrS p "<") h.1
    rw [hq]
    simp only [Option.bind_eq_bind, Option.some_bind]
    exact printSegments_total segments (wrS q ">::") 0 h.2
  | .mk .none kind segments, p, h => by
    simp only [pathOk, optTyOk, Bool.and_eq_true] at h
    simp only [printPath, Option.pure_def, Option.bind_eq_bind, Option.some_bind]
    exact printSegments_total segments _ 0 h.2

termination_by pa _ _ => sizeOf pa

/-- Totality of the path-segment loop on well-formed segments: in
particular, `has_self_type` segments carry a nonempty argument list. -/
theorem printSegments_total :
    ∀ (l : SegmentList) (p : Printer) (i : Nat),
      segsOk true l = true → ∃ r, printSegments p i l = some r
  | .nil, p, _, _ => ⟨p, rfl⟩
  | .cons name .none tl, p, i, h => by
    have htl : segsOk true tl = true := h
    simp only [printSegments, Option.pure_def, Option.bind_eq_bind, Option.some_bind]
    exact printSegments_total tl _ (i + 1) htl
  | .cons name (.some (.mk true .nil bindings)) tl, p, i, h =>
    Bool.noConfusion (show false = true from h)
  | .cons name (.some (.mk true (.cons selfTy restArgs) bindings)) tl, p, i, h => by
    simp only [segsOk, optArgsOk, gargsOk, argListOk, Bool.and_eq_true, Bool.true_and,
      reduceIte] at h
    obtain ⟨⟨⟨h1, h2⟩, h3⟩, h4⟩ := h
    simp only [printSegments, reduceIte, Option.pure_def]
    obtain ⟨q, hq⟩ := printGenericArg_total selfTy
      (wrS (wrS (wr (if i ≠ 0 then wrS p "::" else p) name) "<") "Self=") h1
    rw [hq]
    simp only [Option.bind_eq_bind, Option.some_bind]
    obtain ⟨w, hw⟩ := printGenericArgList_total restArgs q false h2
    obtain ⟨w1, w2⟩ := w
    rw [hw]
    simp only [Option.bind_eq_bind, Option.some_bind]
    obtain ⟨u, hu⟩ := printBindings_total bindings w1 w2 h3
    rw [hu]
    simp only [Option.bind_eq_bind, Option.some_bind]
    exact printSegments_total tl _ (i + 1) h4
  | .cons name (.some (.mk false args bindings)) tl, p, i, h => by
    simp only [segsOk, optArgsOk, gargsOk, Bool.and_eq_true, Bool.and_false, Bool.true_and,
      reduceIte] at h
    obtain ⟨⟨⟨-, h1⟩, h2⟩, h3⟩ := h
    simp only [printSegments, reduceIte, Option.pure_def]
    obtain ⟨w, hw⟩ := printGenericArgList_total args
      (wrS (wr (if i ≠ 0 then wrS p "::" else p) name) "<") true h1
    obtain ⟨w1, w2⟩ := w
    rw [hw]
    simp only [Option.bind_eq_bind, Option.some_bind]
    obtain ⟨u, hu⟩ := printBindings_total bindings w1 w2 h2
    rw [hu]
    simp only [Option.bind_eq_bind, Option.some_bind]
    exact printSegments_total tl _ (i + 1) h3

termination_by l _ _ _ => sizeOf l

/-- Totality of the generic-argument loop on well-formed lists. -/
theorem printGenericArgList_total :
    ∀ (l : GenericArgList) (p : Printer) (first : Bool),
      argListOk true l = true → ∃ rb, printGenericArgList p first l = some rb
  | .nil, p, first, _ => ⟨(p, first), rfl⟩
  | .cons hd tl, p, first, h => by
    simp only [argListOk, Bool.and_eq_true] at h
    simp only [printGenericArgList]
    obtain ⟨q, hq⟩ := printGenericArg_total hd (if !first then wrS p ", " else p) h.1
    rw [hq]
    simp only [Option.bind_eq_bind, Option.some_bind]
    exact printGenericArgList_total tl q false h.2

termination_by l _ _ _ => sizeOf l

/-- Totality of the binding loop on well-formed lists. -/
theorem printBindings_total :
    ∀ (l : BindingList) (p : Printer) (first : Bool),
      bindingsOk true l = true → ∃ r, printBindings p first l = some r
  | .nil, p, first, _ => ⟨p, printBindings_nil p first⟩
  | .cons name .nil .none tl, p, first, h => by
    have htl : bindingsOk true tl = true := h
    rw [printBindings_cons_nil_none]
    exact printBindings_total tl _ false htl
  | .cons name .nil (.some t) tl, p, first, h => by
    simp only [bindingsOk, boundsOk, optTyOk, Bool.and_eq_true] at h
    rw [printBindings_cons_nil_some]
    obtain ⟨q, hq⟩ := printTypeRef_total t
      (wrS (wr (if !first then wrS p ", " else p) name) " = ") h.1.2
    rw [hq]
    simp only [Option.bind_eq_bind, Option.some_bind]
    exact printBindings_total tl q false h.2
  | .cons name (.cons b bs) .none tl, p, first, h => by
    simp only [bindingsOk, optTyOk, Bool.and_eq_true] at h
    rw [printBindings_cons_cons_none]
    obtain ⟨q, hq⟩ := printTypeBounds_total (.cons b bs)
      (wrS (wr (if !first then wrS p ", " else p) name) ": ") 0 h.1.1
    rw [hq]
    simp only [Option.bind_eq_bind, Option.some_bind]
    exact printBindings_total tl q false h.2
  | .cons name (.cons b bs) (.some t) tl, p, first, h => by
    simp only [bindingsOk, optTyOk, Bool.and_eq_true] at h
    rw [printBindings_cons_cons_some]
    obtain ⟨q, hq⟩ := printTypeBounds_total (.cons b bs)
      (wrS (wr (if !first then wrS p ", " else p) name) ": ") 0 h.1.1
    rw [hq]
    simp only [Option.bind_eq_bind, Option.some_bind]
    obtain ⟨q2, hq2⟩ := printTypeRef_total t (wrS q " = ") h.1.2
    rw [hq2]
    simp only [Option.bind_eq_bind, Option.some_bind]
    exact printBindings_total tl q2 false h.2

termination_by l _ _ _ => sizeOf l

/-- Totality of `print_generic_arg` on well-formed arguments. -/
theorem printGenericArg_total :
    ∀ (a : GenericArg) (p : Printer), argOk true a = true → ∃ r, printGenericArg p a = some r
  | .Ty ty, p, h => printTypeRef_total ty p h
  | .Const c, p, _ => ⟨_, rfl⟩
  | .Lifetime lt, p, _ => ⟨_, rfl⟩
termination_by a _ _ => sizeOf a
end


/-- C10: `print_type_ref` panics on a `TypeRef::Fn` whose
parameter-and-return-type list is empty (the `expect` branch), and is
total under the panic-freedom precondition `tyOk true` — which must
require, beyond every `Fn` list being nonempty as the claim stated, that
every `has_self_type` generic-argument list is nonempty (the
`split_first().unwrap()` of `print_path`); `print_type_ref_selfTy_cex`
shows the claim's original precondition does not suffice. -/
theorem print_type_ref_totality :
    (∀ (p : Printer) (varargs : Bool), printTypeRef p (.Fn .nil varargs) = Option.none) ∧
    (∀ (t : TypeRef) (p : Printer), tyOk true t = true →
      (printTypeRef p t).isSome = true) := by
  constructor
  · intro p varargs
    rfl
  · intro t p h
    obtain ⟨r, hr⟩ := printTypeRef_total t p h
    rw [hr]
    rfl

/-- C10 counterexample to the claim as stated: `selfTypePanicTy` contains
no `TypeRef::Fn` at all (so the claim's precondition holds, `tyOk false`),
yet printing it aborts in `print_path` at the `has_self_type` segment with
no generic arguments. -/
theorem print_type_ref_selfTy_cex :
    tyOk false selfTypePanicTy = true ∧
    printTypeRef freshPrinter selfTypePanicTy = Option.none := ⟨rfl, rfl⟩

/-- Witness for C10 at concrete inputs: the empty `Fn` list panics; the
well-formed `fn() -> _` prints. -/
theorem print_type_ref_totality_witness :
    printTypeRef freshPrinter (.Fn .nil false) = Option.none ∧
    tyOk true sampleFnTy = true ∧
    (printTypeRef freshPrinter sampleFnTy).isSome = true :=
  ⟨print_type_ref_totality.1 freshPrinter false, rfl,
    print_type_ref_totality.2 sampleFnTy freshPrinter rfl⟩

end RA
